import Mathlib

/-!
Verification of the trace decoding engine declared in `src/common/trace_parser.hpp`
(namespace `trace`): the incremental binary parser with growing symbol tables,
the dual-mode (materializing vs. skipping) value decoder, the bookmark
mechanism, and the playback decorators (`FastParser`, `LastFrameLoopParser`).

The header gives the class shapes and several inline method bodies
(`Parser::parse_call(bool&)`, `Parser::scan_call`, the `FastParser` no-op
methods, the `LastFrameLoopParser` delegating methods).  The out-of-line
method bodies are not part of the source tree; those parts are modelled from
the specification, as marked on each definition.  The byte-level wire format
is explicitly left open by the specification (§9), so a concrete
length-prefixed, tag-discriminated encoding is fixed here.
-/

set_option autoImplicit false

namespace Trace

/-- Modelled from the spec: `File::Offset` — an opaque, comparable position in
the byte source (§3), represented as a natural index into the byte stream. -/
abbrev Offset := Nat

/-- `ParseBookmark` from `trace_parser.hpp` lines 45-49: a resumable snapshot
of the byte-source offset and the call counter. -/
structure ParseBookmark where
  offset : Offset
  next_call_no : Nat
deriving DecidableEq, Repr

/-- `FunctionSig`: name and ordered parameter names of a function (§3). -/
structure FunctionSig where
  id : Nat
  name : List Nat
  args : List (List Nat)
deriving DecidableEq, Repr

/-- `FunctionSigFlags` from `trace_parser.hpp` lines 80-82: a `FunctionSig`
extended with the call flags obtained from the fixed name-keyed table. -/
structure FunctionSigFlags extends FunctionSig where
  flags : Nat
deriving DecidableEq, Repr

/-- `StructSig`: name and ordered member names of a struct (§3). -/
structure StructSig where
  id : Nat
  name : List Nat
  member_names : List (List Nat)
deriving DecidableEq, Repr

/-- `EnumSig`: name/value pairs of an enumeration (§3). -/
structure EnumSig where
  id : Nat
  values : List (List Nat × Int)
deriving DecidableEq, Repr

/-- `BitmaskSig`: name/value pairs of a bitmask (§3). -/
structure BitmaskSig where
  id : Nat
  flags : List (List Nat × Nat)
deriving DecidableEq, Repr

/-- `StackFrame`: module, function, file and line of one backtrace frame (§3). -/
structure StackFrame where
  id : Nat
  module : List Nat
  function : List Nat
  file : List Nat
  line : Nat
deriving DecidableEq, Repr

/-- `Parser::SigState<T>` from `trace_parser.hpp` lines 86-92: a signature
together with the file offset where its definition was consumed, used when
reparsing to decide whether the definition is to be expected next. -/
structure SigState (T : Type) where
  sig : T
  fileOffset : Offset
deriving DecidableEq, Repr

/-- The recursive tagged value tree produced by the materializing decoder (§3). -/
inductive Value where
  | vsint (n : Int)
  | vuint (n : Nat)
  | vfloat (bits : Nat)
  | vdouble (bits : Nat)
  | vstring (chars : List Nat)
  | venum (sigId : Nat) (value : Int)
  | vbitmask (sigId : Nat) (value : Nat)
  | varray (elems : List Value)
  | vblob (bytes : List Nat)
  | vstruct (sigId : Nat) (members : List Value)
  | vopaque (addr : Nat)
  | vrepr (machineValue : Value)

/-- A decoded call record: sequence number, thread, function signature id,
arguments, optional return value, call flags, optional backtrace (§3). -/
structure Call where
  no : Nat
  thread_id : Nat
  sigId : Nat
  args : List (Option Value)
  ret : Option Value
  flags : Nat
  backtrace : Option (List StackFrame)

/-- The state of `trace::Parser`: the byte source (data plus current offset),
the five per-kind symbol tables (`trace_parser.hpp` lines 100-110), the call
counter `next_call_no` and the decoded header `version`. -/
structure ParserState where
  data : List Nat
  offset : Offset
  functions : List (SigState FunctionSigFlags)
  structs : List (SigState StructSig)
  enums : List (SigState EnumSig)
  bitmasks : List (SigState BitmaskSig)
  frames : List (SigState StackFrame)
  next_call_no : Nat
  version : Nat

/-- Modelled from the spec: `Parser::read_byte` — read one byte from the byte
source, advancing the offset; fails at end of stream. -/
def read_byte (st : ParserState) : Option (Nat × ParserState) :=
  (st.data[st.offset]?).map fun b => (b, { st with offset := st.offset + 1 })

/-- Modelled from the spec: `Parser::skip_byte` — consume one byte without
materializing it. -/
def skip_byte (st : ParserState) : Option ParserState :=
  (st.data[st.offset]?).map fun _ => { st with offset := st.offset + 1 }

/-- Read `n` raw bytes. -/
def read_bytes : Nat → ParserState → Option (List Nat × ParserState)
  | 0, st => some ([], st)
  | n+1, st => (read_byte st).bind fun p =>
      (read_bytes n p.2).map fun q => (p.1 :: q.1, q.2)

/-- Skip `n` raw bytes. -/
def skip_bytes : Nat → ParserState → Option ParserState
  | 0, st => some st
  | n+1, st => (skip_byte st).bind fun st1 => skip_bytes n st1

/-- Little-endian value of a byte list. -/
def leVal : List Nat → Nat
  | [] => 0
  | b :: bs => b + 256 * leVal bs

/-- Modelled from the spec: `Parser::read_uint` — a length-prefixed unsigned
integer: one length byte followed by that many little-endian payload bytes
(the spec leaves the bit layout open, §9). -/
def read_uint (st : ParserState) : Option (Nat × ParserState) :=
  (read_byte st).bind fun p =>
    (read_bytes p.1 p.2).map fun q => (leVal q.1, q.2)

/-- Modelled from the spec: `Parser::skip_uint` — consume the bytes of an
unsigned integer without materializing it. -/
def skip_uint (st : ParserState) : Option ParserState :=
  (read_byte st).bind fun p => skip_bytes p.1 p.2

/-- Modelled from the spec: `Parser::read_sint` — a sign byte followed by a
magnitude encoded like `read_uint`. -/
def read_sint (st : ParserState) : Option (Int × ParserState) :=
  (read_byte st).bind fun p =>
    (read_uint p.2).map fun q =>
      (if p.1 = 0 then (q.1 : Int) else -(q.1 : Int), q.2)

/-- Modelled from the spec: `Parser::skip_sint`. -/
def skip_sint (st : ParserState) : Option ParserState :=
  (read_byte st).bind fun p => skip_uint p.2

/-- Modelled from the spec: `Parser::read_string` — a `read_uint` length
followed by that many character bytes. -/
def read_string (st : ParserState) : Option (List Nat × ParserState) :=
  (read_uint st).bind fun p => read_bytes p.1 p.2

/-- Modelled from the spec: `Parser::skip_string`. -/
def skip_string (st : ParserState) : Option ParserState :=
  (read_uint st).bind fun p => skip_bytes p.1 p.2

theorem skip_byte_agree {st : ParserState} {b : Nat} {st' : ParserState}
    (h : read_byte st = some (b, st')) : skip_byte st = some st' := by
  cases hg : st.data[st.offset]? with
  | none => simp [read_byte, hg] at h
  | some b0 =>
    simp [read_byte, hg] at h
    simp [skip_byte, hg, h.2]

theorem skip_bytes_agree : ∀ (n : Nat) (st : ParserState) (bs : List Nat)
    (st' : ParserState), read_bytes n st = some (bs, st') →
    skip_bytes n st = some st' := by
  intro n
  induction n with
  | zero =>
    intro st bs st' h
    simp [read_bytes] at h
    simp [skip_bytes, h.2]
  | succ n ih =>
    intro st bs st' h
    simp only [read_bytes, Option.bind_eq_some, Option.map_eq_some'] at h
    obtain ⟨⟨b, st1⟩, hb, ⟨bs2, st2⟩, hb2, heq⟩ := h
    simp only [skip_bytes, Option.bind_eq_some]
    refine ⟨st1, skip_byte_agree hb, ?_⟩
    have := ih st1 bs2 st2 hb2
    have h2 : st2 = st' := congrArg Prod.snd heq
    simpa [h2] using this

theorem skip_uint_agree {st : ParserState} {n : Nat} {st' : ParserState}
    (h : read_uint st = some (n, st')) : skip_uint st = some st' := by
  simp only [read_uint, Option.bind_eq_some, Option.map_eq_some'] at h
  obtain ⟨⟨l, st1⟩, hb, ⟨bs, st2⟩, hb2, heq⟩ := h
  simp only [skip_uint, Option.bind_eq_some]
  have h2 : st2 = st' := congrArg Prod.snd heq
  exact ⟨⟨l, st1⟩, hb, h2 ▸ skip_bytes_agree l st1 bs st2 hb2⟩

theorem skip_sint_agree {st : ParserState} {n : Int} {st' : ParserState}
    (h : read_sint st = some (n, st')) : skip_sint st = some st' := by
  simp only [read_sint, Option.bind_eq_some, Option.map_eq_some'] at h
  obtain ⟨⟨b, st1⟩, hb, ⟨m, st2⟩, hb2, heq⟩ := h
  simp only [skip_sint, Option.bind_eq_some]
  have h2 : st2 = st' := congrArg Prod.snd heq
  exact ⟨⟨b, st1⟩, hb, h2 ▸ skip_uint_agree hb2⟩

theorem skip_string_agree {st : ParserState} {s : List Nat} {st' : ParserState}
    (h : read_string st = some (s, st')) : skip_string st = some st' := by
  simp only [read_string, Option.bind_eq_some] at h
  obtain ⟨⟨l, st1⟩, hb, hrest⟩ := h
  simp only [skip_string, Option.bind_eq_some]
  exact ⟨⟨l, st1⟩, hb, skip_bytes_agree l st1 s st' hrest⟩

/-- Modelled from the spec: the fixed, name-keyed call-flags lookup table of
`Parser::lookupCallFlags` (§4.3): a post-decode adjustment marks calls by
resolved function name.  One representative entry is used: the function whose
name is the single character `102` carries flag `1`. -/
def lookupCallFlags (name : List Nat) : Nat :=
  if name = [102] then 1 else 0

/-- Read `n` length-prefixed names (used inside signature definition blocks). -/
def read_name_list : Nat → ParserState → Option (List (List Nat) × ParserState)
  | 0, st => some ([], st)
  | n+1, st => (read_string st).bind fun p =>
      (read_name_list n p.2).map fun q => (p.1 :: q.1, q.2)

/-- Read `n` name/signed-value pairs (enum definition blocks). -/
def read_enum_pairs : Nat → ParserState → Option (List (List Nat × Int) × ParserState)
  | 0, st => some ([], st)
  | n+1, st => (read_string st).bind fun p =>
      (read_sint p.2).bind fun pv =>
      (read_enum_pairs n pv.2).map fun q => ((p.1, pv.1) :: q.1, q.2)

/-- Read `n` name/unsigned-value pairs (bitmask definition blocks). -/
def read_bitmask_pairs : Nat → ParserState → Option (List (List Nat × Nat) × ParserState)
  | 0, st => some ([], st)
  | n+1, st => (read_string st).bind fun p =>
      (read_uint p.2).bind fun pv =>
      (read_bitmask_pairs n pv.2).map fun q => ((p.1, pv.1) :: q.1, q.2)

/-- Modelled from the spec: the function signature definition block — name,
argument count, argument names (§6; bit layout open per §9).  The call flags
come from the fixed name-keyed table. -/
def parse_function_sig_def (id : Nat) (st : ParserState) :
    Option (FunctionSigFlags × ParserState) :=
  (read_string st).bind fun pn =>
  (read_uint pn.2).bind fun pc =>
  (read_name_list pc.1 pc.2).map fun pa =>
    ({ id := id, name := pn.1, args := pa.1, flags := lookupCallFlags pn.1 }, pa.2)

/-- Modelled from the spec: the struct signature definition block — name,
member count, member names. -/
def parse_struct_sig_def (id : Nat) (st : ParserState) :
    Option (StructSig × ParserState) :=
  (read_string st).bind fun pn =>
  (read_uint pn.2).bind fun pc =>
  (read_name_list pc.1 pc.2).map fun pm =>
    ({ id := id, name := pn.1, member_names := pm.1 }, pm.2)

/-- Modelled from the spec: the enum signature definition block — value count,
then name/value pairs. -/
def parse_enum_sig_def (id : Nat) (st : ParserState) :
    Option (EnumSig × ParserState) :=
  (read_uint st).bind fun pc =>
  (read_enum_pairs pc.1 pc.2).map fun pv =>
    ({ id := id, values := pv.1 }, pv.2)

/-- Modelled from the spec: the bitmask signature definition block — flag
count, then name/value pairs. -/
def parse_bitmask_sig_def (id : Nat) (st : ParserState) :
    Option (BitmaskSig × ParserState) :=
  (read_uint st).bind fun pc =>
  (read_bitmask_pairs pc.1 pc.2).map fun pv =>
    ({ id := id, flags := pv.1 }, pv.2)

/-- Modelled from the spec: the stack frame definition block — module,
function, file names and a line number. -/
def parse_frame_def (id : Nat) (st : ParserState) :
    Option (StackFrame × ParserState) :=
  (read_string st).bind fun pm =>
  (read_string pm.2).bind fun pf =>
  (read_string pf.2).bind fun pfile =>
  (read_uint pfile.2).map fun pl =>
    ({ id := id, module := pm.1, function := pf.1, file := pfile.1, line := pl.1 }, pl.2)

/-- Modelled from the spec: `Parser::parse_function_sig` (§4.1).  Reads the
signature id; a definition block is consumed when the id is new (appending the
new `SigState` with its defining offset) or when the recorded defining offset
is at or past the current read position after a bookmark restore (re-reading
the defining occurrence, which is NOT treated as a new definition — the table
entry is left untouched).  A reference to an id beyond the next free id is a
format error. -/
def parse_function_sig (st : ParserState) : Option (FunctionSigFlags × ParserState) :=
  (read_uint st).bind fun pid =>
  let id := pid.1
  let st1 := pid.2
  if h : id < st1.functions.length then
    let cached := st1.functions.get ⟨id, h⟩
    if st1.offset ≤ cached.fileOffset then
      (parse_function_sig_def id st1).map fun pd => (cached.sig, pd.2)
    else
      some (cached.sig, st1)
  else if id = st1.functions.length then
    (parse_function_sig_def id st1).map fun pd =>
      (pd.1, { pd.2 with functions := pd.2.functions ++ [⟨pd.1, st1.offset⟩] })
  else none

/-- Modelled from the spec: `Parser::parse_struct_sig`, with the same
first-use registration and defining-offset validation as functions. -/
def parse_struct_sig (st : ParserState) : Option (StructSig × ParserState) :=
  (read_uint st).bind fun pid =>
  let id := pid.1
  let st1 := pid.2
  if h : id < st1.structs.length then
    let cached := st1.structs.get ⟨id, h⟩
    if st1.offset ≤ cached.fileOffset then
      (parse_struct_sig_def id st1).map fun pd => (cached.sig, pd.2)
    else
      some (cached.sig, st1)
  else if id = st1.structs.length then
    (parse_struct_sig_def id st1).map fun pd =>
      (pd.1, { pd.2 with structs := pd.2.structs ++ [⟨pd.1, st1.offset⟩] })
  else none

/-- Modelled from the spec: `Parser::parse_enum_sig`, with the same first-use
registration and defining-offset validation as functions. -/
def parse_enum_sig (st : ParserState) : Option (EnumSig × ParserState) :=
  (read_uint st).bind fun pid =>
  let id := pid.1
  let st1 := pid.2
  if h : id < st1.enums.length then
    let cached := st1.enums.get ⟨id, h⟩
    if st1.offset ≤ cached.fileOffset then
      (parse_enum_sig_def id st1).map fun pd => (cached.sig, pd.2)
    else
      some (cached.sig, st1)
  else if id = st1.enums.length then
    (parse_enum_sig_def id st1).map fun pd =>
      (pd.1, { pd.2 with enums := pd.2.enums ++ [⟨pd.1, st1.offset⟩] })
  else none

/-- Modelled from the spec: `Parser::parse_bitmask_sig`, with the same
first-use registration and defining-offset validation as functions. -/
def parse_bitmask_sig (st : ParserState) : Option (BitmaskSig × ParserState) :=
  (read_uint st).bind fun pid =>
  let id := pid.1
  let st1 := pid.2
  if h : id < st1.bitmasks.length then
    let cached := st1.bitmasks.get ⟨id, h⟩
    if st1.offset ≤ cached.fileOffset then
      (parse_bitmask_sig_def id st1).map fun pd => (cached.sig, pd.2)
    else
      some (cached.sig, st1)
  else if id = st1.bitmasks.length then
    (parse_bitmask_sig_def id st1).map fun pd =>
      (pd.1, { pd.2 with bitmasks := pd.2.bitmasks ++ [⟨pd.1, st1.offset⟩] })
  else none

/-- Modelled from the spec: `Parser::parse_backtrace_frame` — one backtrace
entry, resolved/cached through the stack-frame symbol table by id (§4.3);
frames are decoded identically in both traversal modes. -/
def parse_backtrace_frame (st : ParserState) : Option (StackFrame × ParserState) :=
  (read_uint st).bind fun pid =>
  let id := pid.1
  let st1 := pid.2
  if h : id < st1.frames.length then
    let cached := st1.frames.get ⟨id, h⟩
    if st1.offset ≤ cached.fileOffset then
      (parse_frame_def id st1).map fun pd => (cached.sig, pd.2)
    else
      some (cached.sig, st1)
  else if id = st1.frames.length then
    (parse_frame_def id st1).map fun pd =>
      (pd.1, { pd.2 with frames := pd.2.frames ++ [⟨pd.1, st1.offset⟩] })
  else none

mutual

/-- Modelled from the spec: `Parser::parse_value` — the materializing-mode
traversal (§4.2): a tag byte selects the variant; composite values recurse;
enum/bitmask/struct decode resolve their signatures against the symbol tables.
`fuel` bounds the recursion depth and is threaded structurally. -/
def parse_value : Nat → ParserState → Option (Value × ParserState)
  | 0, _ => none
  | fuel+1, st =>
    (read_byte st).bind fun pt =>
    let st1 := pt.2
    match pt.1 with
    | 0 => (read_sint st1).map fun p => (Value.vsint p.1, p.2)
    | 1 => (read_uint st1).map fun p => (Value.vuint p.1, p.2)
    | 2 => (read_bytes 4 st1).map fun p => (Value.vfloat (leVal p.1), p.2)
    | 3 => (read_bytes 8 st1).map fun p => (Value.vdouble (leVal p.1), p.2)
    | 4 => (read_string st1).map fun p => (Value.vstring p.1, p.2)
    | 5 => (parse_enum_sig st1).bind fun ps =>
           (read_sint ps.2).map fun pv => (Value.venum ps.1.id pv.1, pv.2)
    | 6 => (parse_bitmask_sig st1).bind fun ps =>
           (read_uint ps.2).map fun pv => (Value.vbitmask ps.1.id pv.1, pv.2)
    | 7 => (read_uint st1).bind fun pc =>
           (parse_values fuel pc.1 pc.2).map fun pe => (Value.varray pe.1, pe.2)
    | 8 => (read_uint st1).bind fun pc =>
           (read_bytes pc.1 pc.2).map fun pb => (Value.vblob pb.1, pb.2)
    | 9 => (parse_struct_sig st1).bind fun ps =>
           (parse_values fuel ps.1.member_names.length ps.2).map fun pm =>
             (Value.vstruct ps.1.id pm.1, pm.2)
    | 10 => (read_uint st1).map fun p => (Value.vopaque p.1, p.2)
    | 11 => (parse_value fuel st1).map fun p => (Value.vrepr p.1, p.2)
    | _ => none

/-- Modelled from the spec: decode `count` consecutive values in
materializing mode (array elements / struct members). -/
def parse_values : Nat → Nat → ParserState → Option (List Value × ParserState)
  | 0, _, _ => none
  | _+1, 0, st => some ([], st)
  | fuel+1, count+1, st =>
    (parse_value fuel st).bind fun p =>
    (parse_values fuel count p.2).map fun q => (p.1 :: q.1, q.2)

end

mutual

/-- Modelled from the spec: `Parser::scan_value` — the skipping-mode traversal
(§4.2): walks the same structural shape as `parse_value`, consuming the same
bytes, but discards payloads and returns no `Value`; enum/bitmask/struct still
resolve their signatures against the symbol tables to keep the stream position
correct. -/
def scan_value : Nat → ParserState → Option ParserState
  | 0, _ => none
  | fuel+1, st =>
    (read_byte st).bind fun pt =>
    let st1 := pt.2
    match pt.1 with
    | 0 => skip_sint st1
    | 1 => skip_uint st1
    | 2 => skip_bytes 4 st1
    | 3 => skip_bytes 8 st1
    | 4 => skip_string st1
    | 5 => (parse_enum_sig st1).bind fun ps => skip_sint ps.2
    | 6 => (parse_bitmask_sig st1).bind fun ps => skip_uint ps.2
    | 7 => (read_uint st1).bind fun pc => scan_values fuel pc.1 pc.2
    | 8 => (read_uint st1).bind fun pc => skip_bytes pc.1 pc.2
    | 9 => (parse_struct_sig st1).bind fun ps =>
           scan_values fuel ps.1.member_names.length ps.2
    | 10 => skip_uint st1
    | 11 => scan_value fuel st1
    | _ => none

/-- Modelled from the spec: skip `count` consecutive values. -/
def scan_values : Nat → Nat → ParserState → Option ParserState
  | 0, _, _ => none
  | _+1, 0, st => some st
  | fuel+1, count+1, st =>
    (scan_value fuel st).bind fun st1 => scan_values fuel count st1

end

theorem value_scan_agree : ∀ fuel : Nat,
    (∀ st v st', parse_value fuel st = some (v, st') → scan_value fuel st = some st') ∧
    (∀ count st vs st', parse_values fuel count st = some (vs, st') →
      scan_values fuel count st = some st') := by
  intro fuel
  induction fuel with
  | zero =>
    constructor
    · intro st v st' h
      simp [parse_value] at h
    · intro count st vs st' h
      simp [parse_values] at h
  | succ fuel ih =>
    constructor
    · intro st v st' h
      simp only [parse_value] at h
      simp only [scan_value]
      cases hb : read_byte st with
      | none => rw [hb] at h; simp at h
      | some pt =>
        rw [hb] at h
        obtain ⟨b, st1⟩ := pt
        simp only [Option.some_bind] at h ⊢
        rcases b with _|_|_|_|_|_|_|_|_|_|_|_|b <;> (try dsimp only at h) <;> (try dsimp only)
        · simp only [Option.map_eq_some'] at h
          obtain ⟨⟨n1, stx⟩, hp, hpe⟩ := h
          have h2 : stx = st' := congrArg Prod.snd hpe
          exact h2 ▸ skip_sint_agree hp
        · simp only [Option.map_eq_some'] at h
          obtain ⟨⟨n1, stx⟩, hp, hpe⟩ := h
          have h2 : stx = st' := congrArg Prod.snd hpe
          exact h2 ▸ skip_uint_agree hp
        · simp only [Option.map_eq_some'] at h
          obtain ⟨⟨bs1, stx⟩, hp, hpe⟩ := h
          have h2 : stx = st' := congrArg Prod.snd hpe
          exact h2 ▸ skip_bytes_agree 4 st1 bs1 stx hp
        · simp only [Option.map_eq_some'] at h
          obtain ⟨⟨bs1, stx⟩, hp, hpe⟩ := h
          have h2 : stx = st' := congrArg Prod.snd hpe
          exact h2 ▸ skip_bytes_agree 8 st1 bs1 stx hp
        · simp only [Option.map_eq_some'] at h
          obtain ⟨⟨s1, stx⟩, hp, hpe⟩ := h
          have h2 : stx = st' := congrArg Prod.snd hpe
          exact h2 ▸ skip_string_agree hp
        · simp only [Option.bind_eq_some, Option.map_eq_some'] at h
          obtain ⟨ps, hps, ⟨ev, stx⟩, hp, hpe⟩ := h
          have h2 : stx = st' := congrArg Prod.snd hpe
          simp only [Option.bind_eq_some]
          exact ⟨ps, hps, h2 ▸ skip_sint_agree hp⟩
        · simp only [Option.bind_eq_some, Option.map_eq_some'] at h
          obtain ⟨ps, hps, ⟨ev, stx⟩, hp, hpe⟩ := h
          have h2 : stx = st' := congrArg Prod.snd hpe
          simp only [Option.bind_eq_some]
          exact ⟨ps, hps, h2 ▸ skip_uint_agree hp⟩
        · simp only [Option.bind_eq_some, Option.map_eq_some'] at h
          obtain ⟨⟨cnt, st2⟩, hpc, ⟨vs2, stx⟩, hp, hpe⟩ := h
          have h2 : stx = st' := congrArg Prod.snd hpe
          simp only [Option.bind_eq_some]
          exact ⟨⟨cnt, st2⟩, hpc, h2 ▸ ih.2 cnt st2 vs2 stx hp⟩
        · simp only [Option.bind_eq_some, Option.map_eq_some'] at h
          obtain ⟨⟨cnt, st2⟩, hpc, ⟨bs1, stx⟩, hp, hpe⟩ := h
          have h2 : stx = st' := congrArg Prod.snd hpe
          simp only [Option.bind_eq_some]
          exact ⟨⟨cnt, st2⟩, hpc, h2 ▸ skip_bytes_agree cnt st2 bs1 stx hp⟩
        · simp only [Option.bind_eq_some, Option.map_eq_some'] at h
          obtain ⟨ps, hps, ⟨ms, stx⟩, hp, hpe⟩ := h
          have h2 : stx = st' := congrArg Prod.snd hpe
          simp only [Option.bind_eq_some]
          exact ⟨ps, hps, h2 ▸ ih.2 ps.1.member_names.length ps.2 ms stx hp⟩
        · simp only [Option.map_eq_some'] at h
          obtain ⟨⟨n1, stx⟩, hp, hpe⟩ := h
          have h2 : stx = st' := congrArg Prod.snd hpe
          exact h2 ▸ skip_uint_agree hp
        · simp only [Option.map_eq_some'] at h
          obtain ⟨⟨v2, stx⟩, hp, hpe⟩ := h
          have h2 : stx = st' := congrArg Prod.snd hpe
          exact h2 ▸ ih.1 st1 v2 stx hp
        · exact Option.noConfusion h
    · intro count st vs st' h
      cases count with
      | zero =>
        simp only [parse_values, Option.some.injEq] at h
        simp only [scan_values, Option.some.injEq]
        exact congrArg Prod.snd h
      | succ count =>
        simp only [parse_values, Option.bind_eq_some, Option.map_eq_some'] at h
        obtain ⟨p, hp, q, hq, hqe⟩ := h
        simp only [scan_values, Option.bind_eq_some]
        refine ⟨p.2, ih.1 st p.1 p.2 (by
          obtain ⟨a, b2⟩ := p
          exact hp), ?_⟩
        have h2 : q.2 = st' := congrArg Prod.snd hqe
        exact h2 ▸ ih.2 count p.2 q.1 q.2 (by
          obtain ⟨a, b2⟩ := q
          exact hq)

/-- `Parser::Mode` from `trace_parser.hpp` lines 71-75: `FULL` materializes
values, `SCAN` and `SKIP` walk the same bytes without materializing
(`parse_value(Mode)`, lines 184-191, sends every non-`FULL` mode to
`scan_value`). -/
inductive Mode where
  | FULL
  | SCAN
  | SKIP
deriving DecidableEq, Repr

/-- The three possible outcomes of requesting the next call: a result, the
normal terminal end-of-stream signal, or a format error (§7 distinguishes the
latter two). -/
inductive ParseResult (α : Type) where
  | ok (a : α)
  | endOfStream
  | formatError
deriving DecidableEq, Repr

/-- Modelled from the spec: `Parser::parse_arg` — decode one argument value in
the given mode (§4.3): materializing mode produces the value, skipping mode
consumes the same bytes and records no value. -/
def parse_arg (fuel : Nat) (mode : Mode) (st : ParserState) :
    Option (Option Value × ParserState) :=
  match mode with
  | Mode.FULL => (parse_value fuel st).map fun p => (some p.1, p.2)
  | _ => (scan_value fuel st).map fun st1 => (none, st1)

/-- Modelled from the spec: decode `n` consecutive argument values in the
given mode. -/
def parse_arg_list (fuel : Nat) (mode : Mode) :
    Nat → ParserState → Option (List (Option Value) × ParserState)
  | 0, st => some ([], st)
  | n+1, st =>
    (parse_arg fuel mode st).bind fun p =>
    (parse_arg_list fuel mode n p.2).map fun q => (p.1 :: q.1, q.2)

/-- Modelled from the spec: decode `n` backtrace frames, each resolved/cached
through the stack-frame symbol table; identical in both modes (§4.3). -/
def parse_frame_list : Nat → ParserState → Option (List StackFrame × ParserState)
  | 0, st => some ([], st)
  | n+1, st =>
    (parse_backtrace_frame st).bind fun p =>
    (parse_frame_list n p.2).map fun q => (p.1 :: q.1, q.2)

/-- Modelled from the spec: the optional return value part of a call record —
a presence byte, then (when present) a value decoded in the given mode. -/
def parse_ret_part (fuel : Nat) (mode : Mode) (st : ParserState) :
    Option (Option Value × ParserState) :=
  (read_byte st).bind fun pr =>
  match pr.1 with
  | 0 => some (none, pr.2)
  | 1 =>
    (match mode with
     | Mode.FULL => (parse_value fuel pr.2).map fun pv => (some pv.1, pv.2)
     | _ => (scan_value fuel pr.2).map fun st2 => (none, st2))
  | _ => none

/-- Modelled from the spec: the optional backtrace part of a call record —
a presence byte, then (when present) a frame count and that many frames. -/
def parse_bt_part (st : ParserState) :
    Option (Option (List StackFrame) × ParserState) :=
  (read_byte st).bind fun pb =>
  match pb.1 with
  | 0 => some (none, pb.2)
  | 1 =>
    (read_uint pb.2).bind fun pc =>
    (parse_frame_list pc.1 pc.2).map fun pf => (some pf.1, pf.2)
  | _ => none

/-- Modelled from the spec: the body of one call record after the enter tag —
thread id, function signature reference (registering it if new), the argument
values (mode-dependent), the leave tag, an optional return value
(mode-dependent) and an optional backtrace.  Returns the resolved signature,
the thread id, the decoded pieces and the final state. -/
def parse_call_body (fuel : Nat) (mode : Mode) (st : ParserState) :
    Option (FunctionSigFlags × Nat × List (Option Value) × Option Value ×
            Option (List StackFrame) × ParserState) :=
  (read_uint st).bind fun pt =>
  (parse_function_sig pt.2).bind fun ps =>
  (parse_arg_list fuel mode ps.1.args.length ps.2).bind fun pa =>
  (read_byte pa.2).bind fun pl =>
  if pl.1 = 1 then
    (parse_ret_part fuel mode pl.2).bind fun prv =>
    (parse_bt_part prv.2).map fun pbt =>
    (ps.1, pt.1, pa.1, prv.1, pbt.1, pbt.2)
  else none

/-- Modelled from the spec: `Parser::parse_call(Mode)` (§4.3, §4.4) — at a
clean record boundary, end of data is the normal `endOfStream` signal; a
record must open with the enter tag `0`, carry the call body, and any decode
failure inside the record (bad tag, dangling signature id, truncated value)
is a `formatError`.  The decoded call receives the call counter as its
sequence number and the counter is advanced; in materializing mode the record
is returned, in skipping mode no record is produced. -/
def parse_call_m (fuel : Nat) (mode : Mode) (st : ParserState) :
    ParseResult (Option Call × ParserState) :=
  if st.data.length ≤ st.offset then ParseResult.endOfStream
  else
    match
      (read_byte st).bind fun pe =>
      if pe.1 = 0 then parse_call_body fuel mode pe.2 else none
    with
    | none => ParseResult.formatError
    | some (sig, thread, args, ret, bt, st1) =>
      let call : Call :=
        { no := st.next_call_no, thread_id := thread, sigId := sig.id,
          args := args, ret := ret, flags := sig.flags, backtrace := bt }
      ParseResult.ok
        ((if mode = Mode.FULL then some call else none),
         { st1 with next_call_no := st1.next_call_no + 1 })

/-- `Parser::parse_call(bool &del)` from `trace_parser.hpp` lines 128-131:
sets `del` to `true` unconditionally and decodes the next call in `FULL`
mode.  The returned flag models the `del` output parameter. -/
def parse_call_del (fuel : Nat) (st : ParserState) :
    ParseResult (Option Call × ParserState) × Bool :=
  (parse_call_m fuel Mode.FULL st, true)

/-- `Parser::scan_call` from `trace_parser.hpp` lines 151-153: decodes the
next call in `SCAN` mode. -/
def scan_call (fuel : Nat) (st : ParserState) :
    ParseResult (Option Call × ParserState) :=
  parse_call_m fuel Mode.SCAN st

/-- Modelled from the spec: `Parser::getBookmark` (§4.4) — capture the
current byte offset and call counter. -/
def ParserState.getBookmark (st : ParserState) : ParseBookmark :=
  { offset := st.offset, next_call_no := st.next_call_no }

/-- Modelled from the spec: `Parser::setBookmark` (§4.4, §3) — reposition the
byte source and reset the call counter; the symbol tables are left intact. -/
def ParserState.setBookmark (b : ParseBookmark) (st : ParserState) : ParserState :=
  { st with offset := b.offset, next_call_no := b.next_call_no }

theorem arg_list_scan_agree : ∀ (n fuel : Nat) (st : ParserState)
    (vs : List (Option Value)) (st' : ParserState),
    parse_arg_list fuel Mode.FULL n st = some (vs, st') →
    ∃ vs2, parse_arg_list fuel Mode.SCAN n st = some (vs2, st') := by
  intro n
  induction n with
  | zero =>
    intro fuel st vs st' h
    simp only [parse_arg_list, Option.some.injEq] at h
    have h2 : st = st' := congrArg Prod.snd h
    exact ⟨[], by simp only [parse_arg_list, h2]⟩
  | succ n ih =>
    intro fuel st vs st' h
    simp only [parse_arg_list, parse_arg] at h ⊢
    simp only [Option.bind_eq_some, Option.map_eq_some'] at h
    obtain ⟨⟨v1, st1⟩, ⟨⟨v0, st0⟩, hv, hveq⟩, ⟨vs2, stx⟩, hrest, hpe⟩ := h
    have hst : st0 = st1 := congrArg Prod.snd hveq
    have h2 : stx = st' := congrArg Prod.snd hpe
    obtain ⟨vs3, h3⟩ := ih fuel st1 vs2 stx hrest
    refine ⟨none :: vs3, ?_⟩
    simp only [Option.bind_eq_some, Option.map_eq_some']
    refine ⟨(none, st1), ⟨st1, ?_, rfl⟩, ⟨vs3, stx⟩, h3, by rw [h2]⟩
    exact hst ▸ (value_scan_agree fuel).1 st v0 st0 hv

theorem ret_part_scan_agree {fuel : Nat} {st : ParserState} {r : Option Value}
    {st' : ParserState} (h : parse_ret_part fuel Mode.FULL st = some (r, st')) :
    ∃ r2, parse_ret_part fuel Mode.SCAN st = some (r2, st') := by
  simp only [parse_ret_part, Option.bind_eq_some] at h ⊢
  obtain ⟨⟨b, st1⟩, hb, hm⟩ := h
  rcases b with _|_|b <;> dsimp only at hm ⊢
  · have h2 : st1 = st' := congrArg Prod.snd (Option.some.inj hm)
    refine ⟨none, ⟨(0, st1), hb, ?_⟩⟩
    subst h2
    rfl
  · simp only [Option.map_eq_some'] at hm
    obtain ⟨⟨v1, stx⟩, hv, hpe⟩ := hm
    have h2 : stx = st' := congrArg Prod.snd hpe
    refine ⟨none, ⟨(1, st1), hb, ?_⟩⟩
    simp only [Option.map_eq_some']
    exact ⟨stx, (value_scan_agree fuel).1 st1 v1 stx hv, by rw [h2]⟩
  · exact Option.noConfusion hm

theorem call_body_scan_agree {fuel : Nat} {st : ParserState}
    {sig : FunctionSigFlags} {thread : Nat} {args : List (Option Value)}
    {ret : Option Value} {bt : Option (List StackFrame)} {st1 : ParserState}
    (h : parse_call_body fuel Mode.FULL st = some (sig, thread, args, ret, bt, st1)) :
    ∃ args2 ret2,
      parse_call_body fuel Mode.SCAN st = some (sig, thread, args2, ret2, bt, st1) := by
  simp only [parse_call_body, Option.bind_eq_some] at h ⊢
  obtain ⟨⟨th, sta⟩, hth, ⟨sg, stb⟩, hsg, ⟨ag, stc⟩, hag, ⟨lb, std⟩, hlb, hif⟩ := h
  by_cases hl : lb = 1
  · rw [if_pos hl] at hif
    simp only [Option.bind_eq_some, Option.map_eq_some'] at hif
    obtain ⟨⟨rv, ste⟩, hrv, ⟨btv, stf⟩, hbt, hpe⟩ := hif
    obtain ⟨ag2, hag2⟩ := arg_list_scan_agree sg.args.length fuel stb ag stc hag
    obtain ⟨rv2, hrv2⟩ := ret_part_scan_agree hrv
    refine ⟨ag2, rv2, (th, sta), hth, (sg, stb), hsg, (ag2, stc), hag2,
      (lb, std), hlb, ?_⟩
    rw [if_pos hl]
    simp only [Option.bind_eq_some, Option.map_eq_some']
    refine ⟨(rv2, ste), hrv2, (btv, stf), hbt, ?_⟩
    have e1 : sg = sig := congrArg (fun x => x.1) hpe
    have e2 : th = thread := congrArg (fun x => x.2.1) hpe
    have e5 : btv = bt := congrArg (fun x => x.2.2.2.2.1) hpe
    have e6 : stf = st1 := congrArg (fun x => x.2.2.2.2.2) hpe
    rw [e1, e2, e5, e6]
  · rw [if_neg hl] at hif
    exact Option.noConfusion hif

theorem call_mode_agree {fuel : Nat} {st : ParserState} {oc : Option Call}
    {st' : ParserState} (h : parse_call_m fuel Mode.FULL st = ParseResult.ok (oc, st')) :
    parse_call_m fuel Mode.SCAN st = ParseResult.ok (none, st') := by
  simp only [parse_call_m] at h ⊢
  by_cases he : st.data.length ≤ st.offset
  · rw [if_pos he] at h
    exact ParseResult.noConfusion h
  · rw [if_neg he] at h
    rw [if_neg he]
    cases hb : (read_byte st).bind fun pe =>
        if pe.1 = 0 then parse_call_body fuel Mode.FULL pe.2 else none with
    | none => rw [hb] at h; exact ParseResult.noConfusion h
    | some r =>
      rw [hb] at h
      obtain ⟨sig, thread, args, ret, bt, st1⟩ := r
      simp only [Option.bind_eq_some] at hb
      obtain ⟨⟨eb, sta⟩, heb, hif⟩ := hb
      by_cases he0 : eb = 0
      · rw [if_pos he0] at hif
        obtain ⟨args2, ret2, hscan⟩ := call_body_scan_agree hif
        have hb2 : ((read_byte st).bind fun pe =>
            if pe.1 = 0 then parse_call_body fuel Mode.SCAN pe.2 else none) =
            some (sig, thread, args2, ret2, bt, st1) := by
          simp only [Option.bind_eq_some]
          exact ⟨(eb, sta), heb, by rw [if_pos he0]; exact hscan⟩
        rw [hb2]
        simp only [ParseResult.ok.injEq] at h ⊢
        have h2 : { st1 with next_call_no := st1.next_call_no + 1 } = st' :=
          congrArg Prod.snd h
        simp [← h2]
      · rw [if_neg he0] at hif
        exact Option.noConfusion hif

/-- The symbol tables of `st'` extend those of `st`: every table of `st'` is
the corresponding table of `st` with entries appended at the end (§4.1: the
tables are monotonically append-only). -/
def TablesExtend (st st' : ParserState) : Prop :=
  (∃ l, st'.functions = st.functions ++ l) ∧
  (∃ l, st'.structs = st.structs ++ l) ∧
  (∃ l, st'.enums = st.enums ++ l) ∧
  (∃ l, st'.bitmasks = st.bitmasks ++ l) ∧
  (∃ l, st'.frames = st.frames ++ l)

theorem tablesExtend_refl (st : ParserState) : TablesExtend st st :=
  ⟨⟨[], by simp⟩, ⟨[], by simp⟩, ⟨[], by simp⟩, ⟨[], by simp⟩, ⟨[], by simp⟩⟩

theorem tablesExtend_trans {s1 s2 s3 : ParserState}
    (h1 : TablesExtend s1 s2) (h2 : TablesExtend s2 s3) : TablesExtend s1 s3 := by
  obtain ⟨⟨a1, e1⟩, ⟨a2, e2⟩, ⟨a3, e3⟩, ⟨a4, e4⟩, ⟨a5, e5⟩⟩ := h1
  obtain ⟨⟨b1, f1⟩, ⟨b2, f2⟩, ⟨b3, f3⟩, ⟨b4, f4⟩, ⟨b5, f5⟩⟩ := h2
  exact ⟨⟨a1 ++ b1, by rw [f1, e1, List.append_assoc]⟩,
         ⟨a2 ++ b2, by rw [f2, e2, List.append_assoc]⟩,
         ⟨a3 ++ b3, by rw [f3, e3, List.append_assoc]⟩,
         ⟨a4 ++ b4, by rw [f4, e4, List.append_assoc]⟩,
         ⟨a5 ++ b5, by rw [f5, e5, List.append_assoc]⟩⟩

/-- One decode step from `st` to `st'` preserves the underlying data, the
call counter and the version, can only move the offset forward, and can only
append to the symbol tables. -/
def StepExtend (st st' : ParserState) : Prop :=
  st'.data = st.data ∧ st'.next_call_no = st.next_call_no ∧
  st'.version = st.version ∧ st.offset ≤ st'.offset ∧ TablesExtend st st'

theorem stepExtend_refl (st : ParserState) : StepExtend st st :=
  ⟨rfl, rfl, rfl, le_refl _, tablesExtend_refl st⟩

theorem stepExtend_trans {s1 s2 s3 : ParserState}
    (h1 : StepExtend s1 s2) (h2 : StepExtend s2 s3) : StepExtend s1 s3 :=
  ⟨h2.1.trans h1.1, h2.2.1.trans h1.2.1, h2.2.2.1.trans h1.2.2.1,
   h1.2.2.2.1.trans h2.2.2.2.1, tablesExtend_trans h1.2.2.2.2 h2.2.2.2.2⟩

/-- A state differing from `st` only by a forward offset move satisfies
`StepExtend`. -/
theorem stepExtend_offset (st : ParserState) (o : Nat) (h : st.offset ≤ o) :
    StepExtend st { st with offset := o } :=
  ⟨rfl, rfl, rfl, h, tablesExtend_refl _⟩

theorem read_byte_step {st : ParserState} {b : Nat} {st' : ParserState}
    (h : read_byte st = some (b, st')) : StepExtend st st' := by
  simp only [read_byte, Option.map_eq_some'] at h
  obtain ⟨b0, hb0, hpe⟩ := h
  have h2 : { st with offset := st.offset + 1 } = st' := congrArg Prod.snd hpe
  exact h2 ▸ stepExtend_offset st (st.offset + 1) (Nat.le_succ _)

theorem skip_byte_step {st : ParserState} {st' : ParserState}
    (h : skip_byte st = some st') : StepExtend st st' := by
  simp only [skip_byte, Option.map_eq_some'] at h
  obtain ⟨b0, hb0, hpe⟩ := h
  exact hpe ▸ stepExtend_offset st (st.offset + 1) (Nat.le_succ _)

theorem read_bytes_step : ∀ (n : Nat) {st : ParserState} {bs : List Nat}
    {st' : ParserState}, read_bytes n st = some (bs, st') → StepExtend st st' := by
  intro n
  induction n with
  | zero =>
    intro st bs st' h
    simp only [read_bytes, Option.some.injEq] at h
    have h2 : st = st' := congrArg Prod.snd h
    exact h2 ▸ stepExtend_refl st
  | succ n ih =>
    intro st bs st' h
    simp only [read_bytes, Option.bind_eq_some, Option.map_eq_some'] at h
    obtain ⟨⟨b, st1⟩, hb, ⟨bs2, st2⟩, hb2, hpe⟩ := h
    have h2 : st2 = st' := congrArg Prod.snd hpe
    exact h2 ▸ stepExtend_trans (read_byte_step hb) (ih hb2)

theorem skip_bytes_step : ∀ (n : Nat) {st st' : ParserState},
    skip_bytes n st = some st' → StepExtend st st' := by
  intro n
  induction n with
  | zero =>
    intro st st' h
    simp only [skip_bytes, Option.some.injEq] at h
    exact h ▸ stepExtend_refl st
  | succ n ih =>
    intro st st' h
    simp only [skip_bytes, Option.bind_eq_some] at h
    obtain ⟨st1, hb, hrest⟩ := h
    exact stepExtend_trans (skip_byte_step hb) (ih hrest)

theorem read_uint_step {st : ParserState} {n : Nat} {st' : ParserState}
    (h : read_uint st = some (n, st')) : StepExtend st st' := by
  simp only [read_uint, Option.bind_eq_some, Option.map_eq_some'] at h
  obtain ⟨⟨l, st1⟩, hb, ⟨bs, st2⟩, hb2, hpe⟩ := h
  have h2 : st2 = st' := congrArg Prod.snd hpe
  exact h2 ▸ stepExtend_trans (read_byte_step hb) (read_bytes_step l hb2)

theorem skip_uint_step {st st' : ParserState}
    (h : skip_uint st = some st') : StepExtend st st' := by
  simp only [skip_uint, Option.bind_eq_some] at h
  obtain ⟨⟨l, st1⟩, hb, hrest⟩ := h
  exact stepExtend_trans (read_byte_step hb) (skip_bytes_step l hrest)

theorem read_sint_step {st : ParserState} {n : Int} {st' : ParserState}
    (h : read_sint st = some (n, st')) : StepExtend st st' := by
  simp only [read_sint, Option.bind_eq_some, Option.map_eq_some'] at h
  obtain ⟨⟨b, st1⟩, hb, ⟨m, st2⟩, hb2, hpe⟩ := h
  have h2 : st2 = st' := congrArg Prod.snd hpe
  exact h2 ▸ stepExtend_trans (read_byte_step hb) (read_uint_step hb2)

theorem skip_sint_step {st st' : ParserState}
    (h : skip_sint st = some st') : StepExtend st st' := by
  simp only [skip_sint, Option.bind_eq_some] at h
  obtain ⟨⟨b, st1⟩, hb, hrest⟩ := h
  exact stepExtend_trans (read_byte_step hb) (skip_uint_step hrest)

theorem read_string_step {st : ParserState} {s : List Nat} {st' : ParserState}
    (h : read_string st = some (s, st')) : StepExtend st st' := by
  simp only [read_string, Option.bind_eq_some] at h
  obtain ⟨⟨l, st1⟩, hb, hrest⟩ := h
  exact stepExtend_trans (read_uint_step hb) (read_bytes_step l hrest)

theorem skip_string_step {st st' : ParserState}
    (h : skip_string st = some st') : StepExtend st st' := by
  simp only [skip_string, Option.bind_eq_some] at h
  obtain ⟨⟨l, st1⟩, hb, hrest⟩ := h
  exact stepExtend_trans (read_uint_step hb) (skip_bytes_step l hrest)

theorem read_name_list_step : ∀ (n : Nat) {st : ParserState}
    {ns : List (List Nat)} {st' : ParserState},
    read_name_list n st = some (ns, st') → StepExtend st st' := by
  intro n
  induction n with
  | zero =>
    intro st ns st' h
    simp only [read_name_list, Option.some.injEq] at h
    have h2 : st = st' := congrArg Prod.snd h
    exact h2 ▸ stepExtend_refl st
  | succ n ih =>
    intro st ns st' h
    simp only [read_name_list, Option.bind_eq_some, Option.map_eq_some'] at h
    obtain ⟨⟨s1, st1⟩, hs, ⟨ns2, st2⟩, hn, hpe⟩ := h
    have h2 : st2 = st' := congrArg Prod.snd hpe
    exact h2 ▸ stepExtend_trans (read_string_step hs) (ih hn)

theorem read_enum_pairs_step : ∀ (n : Nat) {st : ParserState}
    {ps : List (List Nat × Int)} {st' : ParserState},
    read_enum_pairs n st = some (ps, st') → StepExtend st st' := by
  intro n
  induction n with
  | zero =>
    intro st ps st' h
    simp only [read_enum_pairs, Option.some.injEq] at h
    have h2 : st = st' := congrArg Prod.snd h
    exact h2 ▸ stepExtend_refl st
  | succ n ih =>
    intro st ps st' h
    simp only [read_enum_pairs, Option.bind_eq_some, Option.map_eq_some'] at h
    obtain ⟨⟨s1, st1⟩, hs, ⟨v1, st2⟩, hv, ⟨ps2, st3⟩, hp, hpe⟩ := h
    have h2 : st3 = st' := congrArg Prod.snd hpe
    exact h2 ▸ stepExtend_trans (read_string_step hs)
      (stepExtend_trans (read_sint_step hv) (ih hp))

theorem read_bitmask_pairs_step : ∀ (n : Nat) {st : ParserState}
    {ps : List (List Nat × Nat)} {st' : ParserState},
    read_bitmask_pairs n st = some (ps, st') → StepExtend st st' := by
  intro n
  induction n with
  | zero =>
    intro st ps st' h
    simp only [read_bitmask_pairs, Option.some.injEq] at h
    have h2 : st = st' := congrArg Prod.snd h
    exact h2 ▸ stepExtend_refl st
  | succ n ih =>
    intro st ps st' h
    simp only [read_bitmask_pairs, Option.bind_eq_some, Option.map_eq_some'] at h
    obtain ⟨⟨s1, st1⟩, hs, ⟨v1, st2⟩, hv, ⟨ps2, st3⟩, hp, hpe⟩ := h
    have h2 : st3 = st' := congrArg Prod.snd hpe
    exact h2 ▸ stepExtend_trans (read_string_step hs)
      (stepExtend_trans (read_uint_step hv) (ih hp))

theorem parse_function_sig_def_step {id : Nat} {st : ParserState}
    {sg : FunctionSigFlags} {st' : ParserState}
    (h : parse_function_sig_def id st = some (sg, st')) : StepExtend st st' := by
  simp only [parse_function_sig_def, Option.bind_eq_some, Option.map_eq_some'] at h
  obtain ⟨⟨n1, st1⟩, hn, ⟨c1, st2⟩, hc, ⟨a1, st3⟩, ha, hpe⟩ := h
  have h2 : st3 = st' := congrArg Prod.snd hpe
  exact h2 ▸ stepExtend_trans (read_string_step hn)
    (stepExtend_trans (read_uint_step hc) (read_name_list_step c1 ha))

theorem parse_struct_sig_def_step {id : Nat} {st : ParserState}
    {sg : StructSig} {st' : ParserState}
    (h : parse_struct_sig_def id st = some (sg, st')) : StepExtend st st' := by
  simp only [parse_struct_sig_def, Option.bind_eq_some, Option.map_eq_some'] at h
  obtain ⟨⟨n1, st1⟩, hn, ⟨c1, st2⟩, hc, ⟨a1, st3⟩, ha, hpe⟩ := h
  have h2 : st3 = st' := congrArg Prod.snd hpe
  exact h2 ▸ stepExtend_trans (read_string_step hn)
    (stepExtend_trans (read_uint_step hc) (read_name_list_step c1 ha))

theorem parse_enum_sig_def_step {id : Nat} {st : ParserState}
    {sg : EnumSig} {st' : ParserState}
    (h : parse_enum_sig_def id st = some (sg, st')) : StepExtend st st' := by
  simp only [parse_enum_sig_def, Option.bind_eq_some, Option.map_eq_some'] at h
  obtain ⟨⟨c1, st1⟩, hc, ⟨p1, st2⟩, hp, hpe⟩ := h
  have h2 : st2 = st' := congrArg Prod.snd hpe
  exact h2 ▸ stepExtend_trans (read_uint_step hc) (read_enum_pairs_step c1 hp)

theorem parse_bitmask_sig_def_step {id : Nat} {st : ParserState}
    {sg : BitmaskSig} {st' : ParserState}
    (h : parse_bitmask_sig_def id st = some (sg, st')) : StepExtend st st' := by
  simp only [parse_bitmask_sig_def, Option.bind_eq_some, Option.map_eq_some'] at h
  obtain ⟨⟨c1, st1⟩, hc, ⟨p1, st2⟩, hp, hpe⟩ := h
  have h2 : st2 = st' := congrArg Prod.snd hpe
  exact h2 ▸ stepExtend_trans (read_uint_step hc) (read_bitmask_pairs_step c1 hp)

theorem parse_frame_def_step {id : Nat} {st : ParserState}
    {sg : StackFrame} {st' : ParserState}
    (h : parse_frame_def id st = some (sg, st')) : StepExtend st st' := by
  simp only [parse_frame_def, Option.bind_eq_some, Option.map_eq_some'] at h
  obtain ⟨⟨m1, st1⟩, hm, ⟨f1, st2⟩, hf, ⟨l1, st3⟩, hl, ⟨ln, st4⟩, hn, hpe⟩ := h
  have h2 : st4 = st' := congrArg Prod.snd hpe
  exact h2 ▸ stepExtend_trans (read_string_step hm)
    (stepExtend_trans (read_string_step hf)
      (stepExtend_trans (read_string_step hl) (read_uint_step hn)))

/-- An append to a single symbol table is a `StepExtend`. -/
theorem stepExtend_append_functions (st : ParserState)
    (e : SigState FunctionSigFlags) :
    StepExtend st { st with functions := st.functions ++ [e] } :=
  ⟨rfl, rfl, rfl, le_refl _, ⟨[e], rfl⟩, ⟨[], by simp⟩, ⟨[], by simp⟩,
   ⟨[], by simp⟩, ⟨[], by simp⟩⟩

theorem stepExtend_append_structs (st : ParserState) (e : SigState StructSig) :
    StepExtend st { st with structs := st.structs ++ [e] } :=
  ⟨rfl, rfl, rfl, le_refl _, ⟨[], by simp⟩, ⟨[e], rfl⟩, ⟨[], by simp⟩,
   ⟨[], by simp⟩, ⟨[], by simp⟩⟩

theorem stepExtend_append_enums (st : ParserState) (e : SigState EnumSig) :
    StepExtend st { st with enums := st.enums ++ [e] } :=
  ⟨rfl, rfl, rfl, le_refl _, ⟨[], by simp⟩, ⟨[], by simp⟩, ⟨[e], rfl⟩,
   ⟨[], by simp⟩, ⟨[], by simp⟩⟩

theorem stepExtend_append_bitmasks (st : ParserState) (e : SigState BitmaskSig) :
    StepExtend st { st with bitmasks := st.bitmasks ++ [e] } :=
  ⟨rfl, rfl, rfl, le_refl _, ⟨[], by simp⟩, ⟨[], by simp⟩, ⟨[], by simp⟩,
   ⟨[e], rfl⟩, ⟨[], by simp⟩⟩

theorem stepExtend_append_frames (st : ParserState) (e : SigState StackFrame) :
    StepExtend st { st with frames := st.frames ++ [e] } :=
  ⟨rfl, rfl, rfl, le_refl _, ⟨[], by simp⟩, ⟨[], by simp⟩, ⟨[], by simp⟩,
   ⟨[], by simp⟩, ⟨[e], rfl⟩⟩

theorem parse_function_sig_step {st : ParserState} {sg : FunctionSigFlags}
    {st' : ParserState} (h : parse_function_sig st = some (sg, st')) :
    StepExtend st st' := by
  simp only [parse_function_sig, Option.bind_eq_some] at h
  obtain ⟨⟨id, st1⟩, hid, hrest⟩ := h
  have hstep1 := read_uint_step hid
  by_cases hlt : id < st1.functions.length
  · rw [dif_pos hlt] at hrest
    by_cases hoff : st1.offset ≤ (st1.functions.get ⟨id, hlt⟩).fileOffset
    · rw [if_pos hoff] at hrest
      simp only [Option.map_eq_some'] at hrest
      obtain ⟨⟨d1, st2⟩, hd, hpe⟩ := hrest
      have h2 : st2 = st' := congrArg Prod.snd hpe
      exact h2 ▸ stepExtend_trans hstep1 (parse_function_sig_def_step hd)
    · rw [if_neg hoff] at hrest
      have h2 : st1 = st' := congrArg Prod.snd (Option.some.inj hrest)
      exact h2 ▸ hstep1
  · rw [dif_neg hlt] at hrest
    by_cases heq : id = st1.functions.length
    · rw [if_pos heq] at hrest
      simp only [Option.map_eq_some'] at hrest
      obtain ⟨⟨d1, st2⟩, hd, hpe⟩ := hrest
      have h2 : { st2 with functions := st2.functions ++ [⟨d1, st1.offset⟩] } = st' :=
        congrArg Prod.snd hpe
      exact h2 ▸ stepExtend_trans hstep1
        (stepExtend_trans (parse_function_sig_def_step hd)
          (stepExtend_append_functions st2 ⟨d1, st1.offset⟩))
    · rw [if_neg heq] at hrest
      exact Option.noConfusion hrest

theorem parse_struct_sig_step {st : ParserState} {sg : StructSig}
    {st' : ParserState} (h : parse_struct_sig st = some (sg, st')) :
    StepExtend st st' := by
  simp only [parse_struct_sig, Option.bind_eq_some] at h
  obtain ⟨⟨id, st1⟩, hid, hrest⟩ := h
  have hstep1 := read_uint_step hid
  by_cases hlt : id < st1.structs.length
  · rw [dif_pos hlt] at hrest
    by_cases hoff : st1.offset ≤ (st1.structs.get ⟨id, hlt⟩).fileOffset
    · rw [if_pos hoff] at hrest
      simp only [Option.map_eq_some'] at hrest
      obtain ⟨⟨d1, st2⟩, hd, hpe⟩ := hrest
      have h2 : st2 = st' := congrArg Prod.snd hpe
      exact h2 ▸ stepExtend_trans hstep1 (parse_struct_sig_def_step hd)
    · rw [if_neg hoff] at hrest
      have h2 : st1 = st' := congrArg Prod.snd (Option.some.inj hrest)
      exact h2 ▸ hstep1
  · rw [dif_neg hlt] at hrest
    by_cases heq : id = st1.structs.length
    · rw [if_pos heq] at hrest
      simp only [Option.map_eq_some'] at hrest
      obtain ⟨⟨d1, st2⟩, hd, hpe⟩ := hrest
      have h2 : { st2 with structs := st2.structs ++ [⟨d1, st1.offset⟩] } = st' :=
        congrArg Prod.snd hpe
      exact h2 ▸ stepExtend_trans hstep1
        (stepExtend_trans (parse_struct_sig_def_step hd)
          (stepExtend_append_structs st2 ⟨d1, st1.offset⟩))
    · rw [if_neg heq] at hrest
      exact Option.noConfusion hrest

theorem parse_enum_sig_step {st : ParserState} {sg : EnumSig}
    {st' : ParserState} (h : parse_enum_sig st = some (sg, st')) :
    StepExtend st st' := by
  simp only [parse_enum_sig, Option.bind_eq_some] at h
  obtain ⟨⟨id, st1⟩, hid, hrest⟩ := h
  have hstep1 := read_uint_step hid
  by_cases hlt : id < st1.enums.length
  · rw [dif_pos hlt] at hrest
    by_cases hoff : st1.offset ≤ (st1.enums.get ⟨id, hlt⟩).fileOffset
    · rw [if_pos hoff] at hrest
      simp only [Option.map_eq_some'] at hrest
      obtain ⟨⟨d1, st2⟩, hd, hpe⟩ := hrest
      have h2 : st2 = st' := congrArg Prod.snd hpe
      exact h2 ▸ stepExtend_trans hstep1 (parse_enum_sig_def_step hd)
    · rw [if_neg hoff] at hrest
      have h2 : st1 = st' := congrArg Prod.snd (Option.some.inj hrest)
      exact h2 ▸ hstep1
  · rw [dif_neg hlt] at hrest
    by_cases heq : id = st1.enums.length
    · rw [if_pos heq] at hrest
      simp only [Option.map_eq_some'] at hrest
      obtain ⟨⟨d1, st2⟩, hd, hpe⟩ := hrest
      have h2 : { st2 with enums := st2.enums ++ [⟨d1, st1.offset⟩] } = st' :=
        congrArg Prod.snd hpe
      exact h2 ▸ stepExtend_trans hstep1
        (stepExtend_trans (parse_enum_sig_def_step hd)
          (stepExtend_append_enums st2 ⟨d1, st1.offset⟩))
    · rw [if_neg heq] at hrest
      exact Option.noConfusion hrest

theorem parse_bitmask_sig_step {st : ParserState} {sg : BitmaskSig}
    {st' : ParserState} (h : parse_bitmask_sig st = some (sg, st')) :
    StepExtend st st' := by
  simp only [parse_bitmask_sig, Option.bind_eq_some] at h
  obtain ⟨⟨id, st1⟩, hid, hrest⟩ := h
  have hstep1 := read_uint_step hid
  by_cases hlt : id < st1.bitmasks.length
  · rw [dif_pos hlt] at hrest
    by_cases hoff : st1.offset ≤ (st1.bitmasks.get ⟨id, hlt⟩).fileOffset
    · rw [if_pos hoff] at hrest
      simp only [Option.map_eq_some'] at hrest
      obtain ⟨⟨d1, st2⟩, hd, hpe⟩ := hrest
      have h2 : st2 = st' := congrArg Prod.snd hpe
      exact h2 ▸ stepExtend_trans hstep1 (parse_bitmask_sig_def_step hd)
    · rw [if_neg hoff] at hrest
      have h2 : st1 = st' := congrArg Prod.snd (Option.some.inj hrest)
      exact h2 ▸ hstep1
  · rw [dif_neg hlt] at hrest
    by_cases heq : id = st1.bitmasks.length
    · rw [if_pos heq] at hrest
      simp only [Option.map_eq_some'] at hrest
      obtain ⟨⟨d1, st2⟩, hd, hpe⟩ := hrest
      have h2 : { st2 with bitmasks := st2.bitmasks ++ [⟨d1, st1.offset⟩] } = st' :=
        congrArg Prod.snd hpe
      exact h2 ▸ stepExtend_trans hstep1
        (stepExtend_trans (parse_bitmask_sig_def_step hd)
          (stepExtend_append_bitmasks st2 ⟨d1, st1.offset⟩))
    · rw [if_neg heq] at hrest
      exact Option.noConfusion hrest

theorem parse_backtrace_frame_step {st : ParserState} {sg : StackFrame}
    {st' : ParserState} (h : parse_backtrace_frame st = some (sg, st')) :
    StepExtend st st' := by
  simp only [parse_backtrace_frame, Option.bind_eq_some] at h
  obtain ⟨⟨id, st1⟩, hid, hrest⟩ := h
  have hstep1 := read_uint_step hid
  by_cases hlt : id < st1.frames.length
  · rw [dif_pos hlt] at hrest
    by_cases hoff : st1.offset ≤ (st1.frames.get ⟨id, hlt⟩).fileOffset
    · rw [if_pos hoff] at hrest
      simp only [Option.map_eq_some'] at hrest
      obtain ⟨⟨d1, st2⟩, hd, hpe⟩ := hrest
      have h2 : st2 = st' := congrArg Prod.snd hpe
      exact h2 ▸ stepExtend_trans hstep1 (parse_frame_def_step hd)
    · rw [if_neg hoff] at hrest
      have h2 : st1 = st' := congrArg Prod.snd (Option.some.inj hrest)
      exact h2 ▸ hstep1
  · rw [dif_neg hlt] at hrest
    by_cases heq : id = st1.frames.length
    · rw [if_pos heq] at hrest
      simp only [Option.map_eq_some'] at hrest
      obtain ⟨⟨d1, st2⟩, hd, hpe⟩ := hrest
      have h2 : { st2 with frames := st2.frames ++ [⟨d1, st1.offset⟩] } = st' :=
        congrArg Prod.snd hpe
      exact h2 ▸ stepExtend_trans hstep1
        (stepExtend_trans (parse_frame_def_step hd)
          (stepExtend_append_frames st2 ⟨d1, st1.offset⟩))
    · rw [if_neg heq] at hrest
      exact Option.noConfusion hrest

theorem parse_value_step : ∀ fuel : Nat,
    (∀ st v st', parse_value fuel st = some (v, st') → StepExtend st st') ∧
    (∀ count st vs st', parse_values fuel count st = some (vs, st') →
      StepExtend st st') := by
  intro fuel
  induction fuel with
  | zero =>
    constructor
    · intro st v st' h
      simp [parse_value] at h
    · intro count st vs st' h
      simp [parse_values] at h
  | succ fuel ih =>
    constructor
    · intro st v st' h
      simp only [parse_value] at h
      cases hb : read_byte st with
      | none => rw [hb] at h; simp at h
      | some pt =>
        rw [hb] at h
        have hstep0 := read_byte_step hb
        obtain ⟨b, st1⟩ := pt
        simp only [Option.some_bind] at h
        rcases b with _|_|_|_|_|_|_|_|_|_|_|_|b <;> (try dsimp only at h)
        · simp only [Option.map_eq_some'] at h
          obtain ⟨⟨n1, stx⟩, hp, hpe⟩ := h
          have h2 : stx = st' := congrArg Prod.snd hpe
          exact h2 ▸ stepExtend_trans hstep0 (read_sint_step hp)
        · simp only [Option.map_eq_some'] at h
          obtain ⟨⟨n1, stx⟩, hp, hpe⟩ := h
          have h2 : stx = st' := congrArg Prod.snd hpe
          exact h2 ▸ stepExtend_trans hstep0 (read_uint_step hp)
        · simp only [Option.map_eq_some'] at h
          obtain ⟨⟨bs1, stx⟩, hp, hpe⟩ := h
          have h2 : stx = st' := congrArg Prod.snd hpe
          exact h2 ▸ stepExtend_trans hstep0 (read_bytes_step 4 hp)
        · simp only [Option.map_eq_some'] at h
          obtain ⟨⟨bs1, stx⟩, hp, hpe⟩ := h
          have h2 : stx = st' := congrArg Prod.snd hpe
          exact h2 ▸ stepExtend_trans hstep0 (read_bytes_step 8 hp)
        · simp only [Option.map_eq_some'] at h
          obtain ⟨⟨s1, stx⟩, hp, hpe⟩ := h
          have h2 : stx = st' := congrArg Prod.snd hpe
          exact h2 ▸ stepExtend_trans hstep0 (read_string_step hp)
        · simp only [Option.bind_eq_some, Option.map_eq_some'] at h
          obtain ⟨⟨es, st2⟩, hps, ⟨ev, stx⟩, hp, hpe⟩ := h
          have h2 : stx = st' := congrArg Prod.snd hpe
          exact h2 ▸ stepExtend_trans hstep0
            (stepExtend_trans (parse_enum_sig_step hps) (read_sint_step hp))
        · simp only [Option.bind_eq_some, Option.map_eq_some'] at h
          obtain ⟨⟨bs, st2⟩, hps, ⟨ev, stx⟩, hp, hpe⟩ := h
          have h2 : stx = st' := congrArg Prod.snd hpe
          exact h2 ▸ stepExtend_trans hstep0
            (stepExtend_trans (parse_bitmask_sig_step hps) (read_uint_step hp))
        · simp only [Option.bind_eq_some, Option.map_eq_some'] at h
          obtain ⟨⟨cnt, st2⟩, hpc, ⟨vs2, stx⟩, hp, hpe⟩ := h
          have h2 : stx = st' := congrArg Prod.snd hpe
          exact h2 ▸ stepExtend_trans hstep0
            (stepExtend_trans (read_uint_step hpc) (ih.2 cnt st2 vs2 stx hp))
        · simp only [Option.bind_eq_some, Option.map_eq_some'] at h
          obtain ⟨⟨cnt, st2⟩, hpc, ⟨bs1, stx⟩, hp, hpe⟩ := h
          have h2 : stx = st' := congrArg Prod.snd hpe
          exact h2 ▸ stepExtend_trans hstep0
            (stepExtend_trans (read_uint_step hpc) (read_bytes_step cnt hp))
        · simp only [Option.bind_eq_some, Option.map_eq_some'] at h
          obtain ⟨⟨ss, st2⟩, hps, ⟨ms, stx⟩, hp, hpe⟩ := h
          have h2 : stx = st' := congrArg Prod.snd hpe
          exact h2 ▸ stepExtend_trans hstep0
            (stepExtend_trans (parse_struct_sig_step hps)
              (ih.2 ss.member_names.length st2 ms stx hp))
        · simp only [Option.map_eq_some'] at h
          obtain ⟨⟨n1, stx⟩, hp, hpe⟩ := h
          have h2 : stx = st' := congrArg Prod.snd hpe
          exact h2 ▸ stepExtend_trans hstep0 (read_uint_step hp)
        · simp only [Option.map_eq_some'] at h
          obtain ⟨⟨v2, stx⟩, hp, hpe⟩ := h
          have h2 : stx = st' := congrArg Prod.snd hpe
          exact h2 ▸ stepExtend_trans hstep0 (ih.1 st1 v2 stx hp)
        · exact Option.noConfusion h
    · intro count st vs st' h
      cases count with
      | zero =>
        simp only [parse_values, Option.some.injEq] at h
        have h2 : st = st' := congrArg Prod.snd h
        exact h2 ▸ stepExtend_refl st
      | succ count =>
        simp only [parse_values, Option.bind_eq_some, Option.map_eq_some'] at h
        obtain ⟨⟨v1, st1⟩, hp, ⟨vs2, stx⟩, hq, hpe⟩ := h
        have h2 : stx = st' := congrArg Prod.snd hpe
        exact h2 ▸ stepExtend_trans (ih.1 st v1 st1 hp) (ih.2 count st1 vs2 stx hq)

theorem scan_value_step : ∀ fuel : Nat,
    (∀ st st', scan_value fuel st = some st' → StepExtend st st') ∧
    (∀ count st st', scan_values fuel count st = some st' → StepExtend st st') := by
  intro fuel
  induction fuel with
  | zero =>
    constructor
    · intro st st' h
      simp [scan_value] at h
    · intro count st st' h
      simp [scan_values] at h
  | succ fuel ih =>
    constructor
    · intro st st' h
      simp only [scan_value] at h
      cases hb : read_byte st with
      | none => rw [hb] at h; simp at h
      | some pt =>
        rw [hb] at h
        have hstep0 := read_byte_step hb
        obtain ⟨b, st1⟩ := pt
        simp only [Option.some_bind] at h
        rcases b with _|_|_|_|_|_|_|_|_|_|_|_|b <;> (try dsimp only at h)
        · exact stepExtend_trans hstep0 (skip_sint_step h)
        · exact stepExtend_trans hstep0 (skip_uint_step h)
        · exact stepExtend_trans hstep0 (skip_bytes_step 4 h)
        · exact stepExtend_trans hstep0 (skip_bytes_step 8 h)
        · exact stepExtend_trans hstep0 (skip_string_step h)
        · simp only [Option.bind_eq_some] at h
          obtain ⟨⟨es, st2⟩, hps, hp⟩ := h
          exact stepExtend_trans hstep0
            (stepExtend_trans (parse_enum_sig_step hps) (skip_sint_step hp))
        · simp only [Option.bind_eq_some] at h
          obtain ⟨⟨bs, st2⟩, hps, hp⟩ := h
          exact stepExtend_trans hstep0
            (stepExtend_trans (parse_bitmask_sig_step hps) (skip_uint_step hp))
        · simp only [Option.bind_eq_some] at h
          obtain ⟨⟨cnt, st2⟩, hpc, hp⟩ := h
          exact stepExtend_trans hstep0
            (stepExtend_trans (read_uint_step hpc) (ih.2 cnt st2 st' hp))
        · simp only [Option.bind_eq_some] at h
          obtain ⟨⟨cnt, st2⟩, hpc, hp⟩ := h
          exact stepExtend_trans hstep0
            (stepExtend_trans (read_uint_step hpc) (skip_bytes_step cnt hp))
        · simp only [Option.bind_eq_some] at h
          obtain ⟨⟨ss, st2⟩, hps, hp⟩ := h
          exact stepExtend_trans hstep0
            (stepExtend_trans (parse_struct_sig_step hps)
              (ih.2 ss.member_names.length st2 st' hp))
        · exact stepExtend_trans hstep0 (skip_uint_step h)
        · exact stepExtend_trans hstep0 (ih.1 st1 st' h)
        · exact Option.noConfusion h
    · intro count st st' h
      cases count with
      | zero =>
        simp only [scan_values, Option.some.injEq] at h
        exact h ▸ stepExtend_refl st
      | succ count =>
        simp only [scan_values, Option.bind_eq_some] at h
        obtain ⟨st1, hp, hq⟩ := h
        exact stepExtend_trans (ih.1 st st1 hp) (ih.2 count st1 st' hq)

theorem parse_arg_step {fuel : Nat} {mode : Mode} {st : ParserState}
    {r : Option Value} {st' : ParserState}
    (h : parse_arg fuel mode st = some (r, st')) : StepExtend st st' := by
  cases mode <;> simp only [parse_arg, Option.map_eq_some'] at h
  · obtain ⟨⟨v1, stx⟩, hp, hpe⟩ := h
    have h2 : stx = st' := congrArg Prod.snd hpe
    exact h2 ▸ (parse_value_step fuel).1 st v1 stx hp
  · obtain ⟨stx, hp, hpe⟩ := h
    have h2 : stx = st' := congrArg Prod.snd hpe
    exact h2 ▸ (scan_value_step fuel).1 st stx hp
  · obtain ⟨stx, hp, hpe⟩ := h
    have h2 : stx = st' := congrArg Prod.snd hpe
    exact h2 ▸ (scan_value_step fuel).1 st stx hp

theorem parse_arg_list_step : ∀ (n : Nat) {fuel : Nat} {mode : Mode}
    {st : ParserState} {vs : List (Option Value)} {st' : ParserState},
    parse_arg_list fuel mode n st = some (vs, st') → StepExtend st st' := by
  intro n
  induction n with
  | zero =>
    intro fuel mode st vs st' h
    simp only [parse_arg_list, Option.some.injEq] at h
    have h2 : st = st' := congrArg Prod.snd h
    exact h2 ▸ stepExtend_refl st
  | succ n ih =>
    intro fuel mode st vs st' h
    simp only [parse_arg_list, Option.bind_eq_some, Option.map_eq_some'] at h
    obtain ⟨⟨v1, st1⟩, hp, ⟨vs2, stx⟩, hq, hpe⟩ := h
    have h2 : stx = st' := congrArg Prod.snd hpe
    exact h2 ▸ stepExtend_trans (parse_arg_step hp) (ih hq)

theorem parse_frame_list_step : ∀ (n : Nat) {st : ParserState}
    {fs : List StackFrame} {st' : ParserState},
    parse_frame_list n st = some (fs, st') → StepExtend st st' := by
  intro n
  induction n with
  | zero =>
    intro st fs st' h
    simp only [parse_frame_list, Option.some.injEq] at h
    have h2 : st = st' := congrArg Prod.snd h
    exact h2 ▸ stepExtend_refl st
  | succ n ih =>
    intro st fs st' h
    simp only [parse_frame_list, Option.bind_eq_some, Option.map_eq_some'] at h
    obtain ⟨⟨f1, st1⟩, hp, ⟨fs2, stx⟩, hq, hpe⟩ := h
    have h2 : stx = st' := congrArg Prod.snd hpe
    exact h2 ▸ stepExtend_trans (parse_backtrace_frame_step hp) (ih hq)

theorem parse_ret_part_step {fuel : Nat} {mode : Mode} {st : ParserState}
    {r : Option Value} {st' : ParserState}
    (h : parse_ret_part fuel mode st = some (r, st')) : StepExtend st st' := by
  simp only [parse_ret_part, Option.bind_eq_some] at h
  obtain ⟨⟨b, st1⟩, hb, hm⟩ := h
  have hstep0 := read_byte_step hb
  rcases b with _|_|b <;> (try dsimp only at hm)
  · have h2 : st1 = st' := congrArg Prod.snd (Option.some.inj hm)
    exact h2 ▸ hstep0
  · cases mode <;> simp only [Option.map_eq_some'] at hm
    · obtain ⟨⟨v1, stx⟩, hp, hpe⟩ := hm
      have h2 : stx = st' := congrArg Prod.snd hpe
      exact h2 ▸ stepExtend_trans hstep0 ((parse_value_step fuel).1 st1 v1 stx hp)
    · obtain ⟨stx, hp, hpe⟩ := hm
      have h2 : stx = st' := congrArg Prod.snd hpe
      exact h2 ▸ stepExtend_trans hstep0 ((scan_value_step fuel).1 st1 stx hp)
    · obtain ⟨stx, hp, hpe⟩ := hm
      have h2 : stx = st' := congrArg Prod.snd hpe
      exact h2 ▸ stepExtend_trans hstep0 ((scan_value_step fuel).1 st1 stx hp)
  · exact Option.noConfusion hm

theorem parse_bt_part_step {st : ParserState}
    {r : Option (List StackFrame)} {st' : ParserState}
    (h : parse_bt_part st = some (r, st')) : StepExtend st st' := by
  simp only [parse_bt_part, Option.bind_eq_some] at h
  obtain ⟨⟨b, st1⟩, hb, hm⟩ := h
  have hstep0 := read_byte_step hb
  rcases b with _|_|b <;> (try dsimp only at hm)
  · have h2 : st1 = st' := congrArg Prod.snd (Option.some.inj hm)
    exact h2 ▸ hstep0
  · simp only [Option.bind_eq_some, Option.map_eq_some'] at hm
    obtain ⟨⟨c1, st2⟩, hc, ⟨fs, stx⟩, hf, hpe⟩ := hm
    have h2 : stx = st' := congrArg Prod.snd hpe
    exact h2 ▸ stepExtend_trans hstep0
      (stepExtend_trans (read_uint_step hc) (parse_frame_list_step c1 hf))
  · exact Option.noConfusion hm

theorem parse_call_body_step {fuel : Nat} {mode : Mode} {st : ParserState}
    {sig : FunctionSigFlags} {thread : Nat} {args : List (Option Value)}
    {ret : Option Value} {bt : Option (List StackFrame)} {st1 : ParserState}
    (h : parse_call_body fuel mode st = some (sig, thread, args, ret, bt, st1)) :
    StepExtend st st1 := by
  simp only [parse_call_body, Option.bind_eq_some] at h
  obtain ⟨⟨th, sta⟩, hth, ⟨sg, stb⟩, hsg, ⟨ag, stc⟩, hag, ⟨lb, std⟩, hlb, hif⟩ := h
  by_cases hl : lb = 1
  · rw [if_pos hl] at hif
    simp only [Option.bind_eq_some, Option.map_eq_some'] at hif
    obtain ⟨⟨rv, ste⟩, hrv, ⟨btv, stf⟩, hbt, hpe⟩ := hif
    have h2 : stf = st1 := congrArg (fun x => x.2.2.2.2.2) hpe
    exact h2 ▸ stepExtend_trans (read_uint_step hth)
      (stepExtend_trans (parse_function_sig_step hsg)
        (stepExtend_trans (parse_arg_list_step sg.args.length hag)
          (stepExtend_trans (read_byte_step hlb)
            (stepExtend_trans (parse_ret_part_step hrv) (parse_bt_part_step hbt)))))
  · rw [if_neg hl] at hif
    exact Option.noConfusion hif

/-- The effect of one successful `parse_call_m` on the parser state: the data
and version are untouched, the call counter advances by exactly one, the
offset strictly advances, and the symbol tables only grow. -/
theorem parse_call_m_step {fuel : Nat} {mode : Mode} {st : ParserState}
    {oc : Option Call} {st' : ParserState}
    (h : parse_call_m fuel mode st = ParseResult.ok (oc, st')) :
    st'.data = st.data ∧ st'.version = st.version ∧
    st'.next_call_no = st.next_call_no + 1 ∧ st.offset < st'.offset ∧
    TablesExtend st st' := by
  simp only [parse_call_m] at h
  by_cases he : st.data.length ≤ st.offset
  · rw [if_pos he] at h
    exact ParseResult.noConfusion h
  · rw [if_neg he] at h
    cases hb : (read_byte st).bind fun pe =>
        if pe.1 = 0 then parse_call_body fuel mode pe.2 else none with
    | none => rw [hb] at h; exact ParseResult.noConfusion h
    | some r =>
      rw [hb] at h
      obtain ⟨sig, thread, args, ret, bt, st1⟩ := r
      simp only [ParseResult.ok.injEq] at h
      have hst : { st1 with next_call_no := st1.next_call_no + 1 } = st' :=
        congrArg Prod.snd h
      simp only [Option.bind_eq_some] at hb
      obtain ⟨⟨eb, sta⟩, heb, hif⟩ := hb
      by_cases he0 : eb = 0
      · rw [if_pos he0] at hif
        have hs1 := read_byte_step heb
        have hs2 := parse_call_body_step hif
        have hall : StepExtend st st1 := stepExtend_trans hs1 hs2
        have hoffa : st.offset + 1 ≤ sta.offset := by
          simp only [read_byte, Option.map_eq_some'] at heb
          obtain ⟨b0, hb0, hpe⟩ := heb
          have h3 : { st with offset := st.offset + 1 } = sta :=
            congrArg Prod.snd hpe
          exact le_of_eq (congrArg ParserState.offset h3)
        refine ⟨?_, ?_, ?_, ?_, ?_⟩
        · rw [← hst]; exact hall.1
        · rw [← hst]; exact hall.2.2.1
        · rw [← hst]
          show st1.next_call_no + 1 = st.next_call_no + 1
          rw [hall.2.1]
        · rw [← hst]
          show st.offset < st1.offset
          exact Nat.lt_of_lt_of_le (Nat.lt_of_lt_of_le (Nat.lt_succ_self _) hoffa)
            hs2.2.2.2.1
        · rw [← hst]
          exact hall.2.2.2.2
      · rw [if_neg he0] at hif
        exact Option.noConfusion hif

/-- `Parser::bookmarkFrameStart` from `trace_parser.hpp` line 142: a no-op at
the core-parser level (frame bookkeeping is a decorator concern). -/
def ParserState.bookmarkFrameStart (st : ParserState) : ParserState := st

/-- One public operation on the core parser, as offered by the header:
`parse_call(bool&)` (FULL mode), `scan_call` (SCAN mode), `setBookmark`, and
the no-op `bookmarkFrameStart`. -/
inductive ParserOp where
  | parseCall (fuel : Nat)
  | scanCall (fuel : Nat)
  | setBookmark (b : ParseBookmark)
  | bookmarkFrameStart

/-- Apply one operation to the parser state.  A `formatError` or
`endOfStream` leaves the state as-is (§7: the parser does not resynchronize;
internal state is left alone). -/
def applyOp (op : ParserOp) (st : ParserState) : ParserState :=
  match op with
  | ParserOp.parseCall fuel =>
    match parse_call_m fuel Mode.FULL st with
    | ParseResult.ok p => p.2
    | _ => st
  | ParserOp.scanCall fuel =>
    match parse_call_m fuel Mode.SCAN st with
    | ParseResult.ok p => p.2
    | _ => st
  | ParserOp.setBookmark b => ParserState.setBookmark b st
  | ParserOp.bookmarkFrameStart => ParserState.bookmarkFrameStart st

/-- Apply a sequence of operations, left to right. -/
def applyOps (ops : List ParserOp) (st : ParserState) : ParserState :=
  match ops with
  | [] => st
  | op :: rest => applyOps rest (applyOp op st)

theorem tablesExtend_applyOp (op : ParserOp) (st : ParserState) :
    TablesExtend st (applyOp op st) := by
  cases op with
  | parseCall fuel =>
    simp only [applyOp]
    cases hr : parse_call_m fuel Mode.FULL st with
    | ok p =>
      obtain ⟨oc, st1⟩ := p
      exact (parse_call_m_step hr).2.2.2.2
    | endOfStream => exact tablesExtend_refl st
    | formatError => exact tablesExtend_refl st
  | scanCall fuel =>
    simp only [applyOp]
    cases hr : parse_call_m fuel Mode.SCAN st with
    | ok p =>
      obtain ⟨oc, st1⟩ := p
      exact (parse_call_m_step hr).2.2.2.2
    | endOfStream => exact tablesExtend_refl st
    | formatError => exact tablesExtend_refl st
  | setBookmark b =>
    exact ⟨⟨[], by simp [applyOp, ParserState.setBookmark]⟩,
      ⟨[], by simp [applyOp, ParserState.setBookmark]⟩,
      ⟨[], by simp [applyOp, ParserState.setBookmark]⟩,
      ⟨[], by simp [applyOp, ParserState.setBookmark]⟩,
      ⟨[], by simp [applyOp, ParserState.setBookmark]⟩⟩
  | bookmarkFrameStart => exact tablesExtend_refl st

theorem tablesExtend_applyOps (ops : List ParserOp) (st : ParserState) :
    TablesExtend st (applyOps ops st) := by
  induction ops generalizing st with
  | nil => exact tablesExtend_refl st
  | cons op rest ih =>
    exact tablesExtend_trans (tablesExtend_applyOp op st) (ih (applyOp op st))

theorem get?_append_of_some {α : Type} {l t : List α} {id : Nat} {e : α}
    (h : l.get? id = some e) : (l ++ t).get? id = some e := by
  have hlt : id < l.length := by
    by_contra hge
    rw [List.get?_eq_none.mpr (Nat.le_of_not_lt hge)] at h
    exact Option.noConfusion h
  rw [List.get?_append hlt]
  exact h

/-- Lookup of an already-registered entry survives any table extension. -/
theorem lookup_preserved {st st' : ParserState} (hx : TablesExtend st st') :
    (∀ id e, st.functions.get? id = some e → st'.functions.get? id = some e) ∧
    (∀ id e, st.structs.get? id = some e → st'.structs.get? id = some e) ∧
    (∀ id e, st.enums.get? id = some e → st'.enums.get? id = some e) ∧
    (∀ id e, st.bitmasks.get? id = some e → st'.bitmasks.get? id = some e) ∧
    (∀ id e, st.frames.get? id = some e → st'.frames.get? id = some e) := by
  obtain ⟨⟨l1, e1⟩, ⟨l2, e2⟩, ⟨l3, e3⟩, ⟨l4, e4⟩, ⟨l5, e5⟩⟩ := hx
  exact ⟨fun id e h => by rw [e1]; exact get?_append_of_some h,
         fun id e h => by rw [e2]; exact get?_append_of_some h,
         fun id e h => by rw [e3]; exact get?_append_of_some h,
         fun id e h => by rw [e4]; exact get?_append_of_some h,
         fun id e h => by rw [e5]; exact get?_append_of_some h⟩

/-- In a non-materializing mode, a successful decode never returns a record. -/
theorem parse_call_m_scan_none {fuel : Nat} {st : ParserState} {oc : Option Call}
    {st' : ParserState}
    (h : parse_call_m fuel Mode.SCAN st = ParseResult.ok (oc, st')) : oc = none := by
  simp only [parse_call_m] at h
  by_cases he : st.data.length ≤ st.offset
  · rw [if_pos he] at h
    exact ParseResult.noConfusion h
  · rw [if_neg he] at h
    cases hb : (read_byte st).bind fun pe =>
        if pe.1 = 0 then parse_call_body fuel Mode.SCAN pe.2 else none with
    | none => rw [hb] at h; exact ParseResult.noConfusion h
    | some r =>
      rw [hb] at h
      obtain ⟨sig, thread, args, ret, bt, st1⟩ := r
      simp only [ParseResult.ok.injEq] at h
      have := congrArg Prod.fst h
      simpa using this.symm

/-- A concrete two-call trace used to exercise the decoder: call 1 defines
function signature 0 (name `[65]`, one argument named `[66]`) and enum
signature 0 inline, call 2 reuses the cached function signature. -/
def cData : List Nat :=
  [0, 0, 0, 1, 1, 65, 1, 1, 1, 1, 66, 5, 0, 1, 1, 1, 1, 67, 0, 1, 5, 0, 1, 5, 1, 0, 0,
   0, 0, 0, 1, 1, 7, 1, 0, 0]

/-- The freshly opened parser state on `cData`. -/
def cSt0 : ParserState :=
  { data := cData, offset := 0, functions := [], structs := [], enums := [],
    bitmasks := [], frames := [], next_call_no := 0, version := 1 }

/-- The first call record decoded from `cData`. -/
def cCall1 : Call :=
  { no := 0, thread_id := 0, sigId := 0, args := [some (Value.venum 0 5)],
    ret := none, flags := 0, backtrace := none }

/-- The function-table entry registered while decoding call 1 of `cData`. -/
def cFunEntry : SigState FunctionSigFlags := ⟨⟨⟨0, [65], [[66]]⟩, 0⟩, 3⟩

/-- The enum-table entry registered while decoding call 1 of `cData`. -/
def cEnumEntry : SigState EnumSig := ⟨⟨0, [([67], 5)]⟩, 13⟩

/-- The parser state after decoding call 1 of `cData`. -/
def cSt1 : ParserState :=
  { data := cData, offset := 27, functions := [cFunEntry], structs := [],
    enums := [cEnumEntry], bitmasks := [], frames := [],
    next_call_no := 1, version := 1 }

/-- The second call record decoded from `cData`. -/
def cCall2 : Call :=
  { no := 1, thread_id := 0, sigId := 0, args := [some (Value.vuint 7)],
    ret := none, flags := 0, backtrace := none }

/-- The parser state after decoding both calls of `cData`. -/
def cSt2 : ParserState := { cSt1 with offset := 36, next_call_no := 2 }

/-- A concrete well-formed value byte sequence (an array of two scalars). -/
def vSt0 : ParserState :=
  { data := [7, 1, 2, 1, 1, 5, 0, 0, 1, 7], offset := 0, functions := [],
    structs := [], enums := [], bitmasks := [], frames := [],
    next_call_no := 0, version := 0 }

/-- Claim C1: for every well-formed value byte sequence, decoding it in
materializing mode (`parse_value`) and decoding it in skipping mode
(`scan_value`) consume exactly the same number of bytes: the skipping decode
succeeds and ends in the identical parser state, hence at the identical byte
offset. -/
theorem c1_mode_equivalence (fuel : Nat) (st : ParserState) (v : Value)
    (st' : ParserState) (h : parse_value fuel st = some (v, st')) :
    scan_value fuel st = some st' :=
  (value_scan_agree fuel).1 st v st' h

/-- Witness for C1 at the concrete array value of `vSt0`. -/
theorem c1_mode_equivalence_witness :
    scan_value 10 vSt0 = some { vSt0 with offset := 10 } :=
  c1_mode_equivalence 10 vSt0 (Value.varray [Value.vuint 5, Value.vsint 7])
    { vSt0 with offset := 10 } rfl

/-- Claim C2: after any successful `parseCall`, restoring the bookmark just
captured (`setBookmark(getBookmark())`) is a no-op — the state is unchanged
and the next decoded call is identical to what would have been decoded
without the round-trip. -/
theorem c2_bookmark_roundtrip (fuel f2 : Nat) (st0 : ParserState)
    (r : Option Call) (st1 : ParserState)
    (h : parse_call_m fuel Mode.FULL st0 = ParseResult.ok (r, st1)) :
    ParserState.setBookmark (ParserState.getBookmark st1) st1 = st1 ∧
    parse_call_m f2 Mode.FULL (ParserState.setBookmark (ParserState.getBookmark st1) st1) =
      parse_call_m f2 Mode.FULL st1 :=
  ⟨rfl, rfl⟩

/-- Witness for C2 immediately after decoding call 1 of `cData`. -/
theorem c2_bookmark_roundtrip_witness :
    ParserState.setBookmark (ParserState.getBookmark cSt1) cSt1 = cSt1 ∧
    parse_call_m 20 Mode.FULL (ParserState.setBookmark (ParserState.getBookmark cSt1) cSt1) =
      parse_call_m 20 Mode.FULL cSt1 :=
  c2_bookmark_roundtrip 20 20 cSt0 (some cCall1) cSt1 rfl

/-- Claim C3: once registered, a `(kind, id)` entry resolves identically on
every subsequent lookup, across any sequence of parser operations including
`setBookmark` restores; and `setBookmark` itself repositions the byte source
and resets the call counter while leaving all five symbol tables untouched
(they grow append-only). -/
theorem c3_symbol_monotonicity (ops : List ParserOp) (st : ParserState) (id : Nat) :
    (∀ e, st.functions.get? id = some e → (applyOps ops st).functions.get? id = some e) ∧
    (∀ e, st.structs.get? id = some e → (applyOps ops st).structs.get? id = some e) ∧
    (∀ e, st.enums.get? id = some e → (applyOps ops st).enums.get? id = some e) ∧
    (∀ e, st.bitmasks.get? id = some e → (applyOps ops st).bitmasks.get? id = some e) ∧
    (∀ e, st.frames.get? id = some e → (applyOps ops st).frames.get? id = some e) ∧
    (∀ b, (ParserState.setBookmark b st).offset = b.offset ∧
          (ParserState.setBookmark b st).next_call_no = b.next_call_no ∧
          (ParserState.setBookmark b st).functions = st.functions ∧
          (ParserState.setBookmark b st).structs = st.structs ∧
          (ParserState.setBookmark b st).enums = st.enums ∧
          (ParserState.setBookmark b st).bitmasks = st.bitmasks ∧
          (ParserState.setBookmark b st).frames = st.frames) := by
  have hl := lookup_preserved (tablesExtend_applyOps ops st)
  exact ⟨fun e => hl.1 id e, fun e => hl.2.1 id e, fun e => hl.2.2.1 id e,
    fun e => hl.2.2.2.1 id e, fun e => hl.2.2.2.2 id e,
    fun b => ⟨rfl, rfl, rfl, rfl, rfl, rfl, rfl⟩⟩

/-- Witness for C3: after a bookmark restore to the start of `cData` and a
re-decode of call 1, the registered function and enum entries still resolve
to their original signatures. -/
theorem c3_symbol_monotonicity_witness :
    (applyOps [ParserOp.setBookmark ⟨0, 0⟩, ParserOp.parseCall 20] cSt1).functions.get? 0 =
      some cFunEntry ∧
    (applyOps [ParserOp.setBookmark ⟨0, 0⟩, ParserOp.parseCall 20] cSt1).enums.get? 0 =
      some cEnumEntry :=
  ⟨(c3_symbol_monotonicity [ParserOp.setBookmark ⟨0, 0⟩, ParserOp.parseCall 20] cSt1 0).1
      cFunEntry rfl,
   (c3_symbol_monotonicity [ParserOp.setBookmark ⟨0, 0⟩, ParserOp.parseCall 20] cSt1 0).2.2.1
      cEnumEntry rfl⟩

/-- Claim C4: replacing a `parseCall` by a `scanCall` yields the identical
successor state (same position advance, same call-counter advance, same
symbol-table growth) and no record, so the next `parseCall` decodes the
identical call N+1 record. -/
theorem c4_scan_parse_agreement (fuel f2 : Nat) (st : ParserState)
    (oc : Option Call) (st1 : ParserState)
    (h : parse_call_m fuel Mode.FULL st = ParseResult.ok (oc, st1)) :
    scan_call fuel st = ParseResult.ok (none, st1) ∧
    parse_call_m f2 Mode.FULL (applyOp (ParserOp.scanCall fuel) st) =
      parse_call_m f2 Mode.FULL (applyOp (ParserOp.parseCall fuel) st) := by
  have hs : parse_call_m fuel Mode.SCAN st = ParseResult.ok (none, st1) :=
    call_mode_agree h
  refine ⟨hs, ?_⟩
  simp only [applyOp]
  rw [h, hs]

/-- Witness for C4 at call 1 of `cData`: the scan reaches the same state and
the following `parseCall` is unaffected. -/
theorem c4_scan_parse_agreement_witness :
    scan_call 20 cSt0 = ParseResult.ok (none, cSt1) ∧
    parse_call_m 20 Mode.FULL (applyOp (ParserOp.scanCall 20) cSt0) =
      parse_call_m 20 Mode.FULL (applyOp (ParserOp.parseCall 20) cSt0) :=
  c4_scan_parse_agreement 20 20 cSt0 (some cCall1) cSt1 rfl

/-- Claim C7: a successful `scanCall` decodes the next call in skipping mode:
it produces no call record, advances the call counter by one and strictly
advances the stream position. -/
theorem c7_scan_call_no_record (fuel : Nat) (st : ParserState) (r : Option Call)
    (st' : ParserState) (h : scan_call fuel st = ParseResult.ok (r, st')) :
    r = none ∧ st'.next_call_no = st.next_call_no + 1 ∧ st.offset < st'.offset := by
  have h' : parse_call_m fuel Mode.SCAN st = ParseResult.ok (r, st') := h
  exact ⟨parse_call_m_scan_none h', (parse_call_m_step h').2.2.1,
    (parse_call_m_step h').2.2.2.1⟩

/-- Witness for C7 at call 1 of `cData`. -/
theorem c7_scan_call_no_record_witness :
    (none : Option Call) = none ∧ cSt1.next_call_no = cSt0.next_call_no + 1 ∧
    cSt0.offset < cSt1.offset :=
  c7_scan_call_no_record 20 cSt0 none cSt1 rfl

/-- Claim C10: the public `Parser::parse_call(bool &del)` sets the `del`
output flag to `true` unconditionally (the caller receives ownership),
whatever the state and whether or not a call is returned. -/
theorem c10_parse_call_del_true (fuel : Nat) (st : ParserState) :
    (parse_call_del fuel st).2 = true := rfl

/-- The process-wide loop policy from `trace_parser.hpp` lines 38-40:
`loopOnFinish`, `loopContinuous`, `loopIter`. -/
structure LoopConfig where
  loopOnFinish : Bool
  loopContinuous : Bool
  loopIter : Nat
deriving DecidableEq, Repr

/-- `FastParser` state from `trace_parser.hpp` lines 243-263: the saved call
vector and the replay cursor `idx`. -/
structure FastParser where
  savedCalls : List Call
  idx : Nat

/-- Modelled from the spec: `FastParser::parse_call` (§4.5) — return the call
at the cursor and advance it; past the end the cursor wraps to the start
(inherently cyclic).  An empty cache yields nothing. -/
def FastParser.parse_call (f : FastParser) : Option Call × FastParser :=
  match f.savedCalls.get? f.idx with
  | none => (none, f)
  | some c =>
    (some c, { f with idx := if f.idx + 1 ≥ f.savedCalls.length then 0 else f.idx + 1 })

/-- `FastParser::getBookmark` from `trace_parser.hpp` line 254: empty body —
the out-parameter is left untouched and the state is unchanged. -/
def FastParser.getBookmark (f : FastParser) (bookmark : ParseBookmark) :
    ParseBookmark × FastParser := (bookmark, f)

/-- `FastParser::setBookmark` from `trace_parser.hpp` line 255: empty body. -/
def FastParser.setBookmark (b : ParseBookmark) (f : FastParser) : FastParser := f

/-- `FastParser::bookmarkFrameStart` from `trace_parser.hpp` line 253: empty
body. -/
def FastParser.bookmarkFrameStart (call : Call) (f : FastParser) : FastParser := f

/-- `FastParser::open` from `trace_parser.hpp` line 256: returns `false` and
does nothing. -/
def FastParser.openFile (filename : List Nat) (f : FastParser) : Bool × FastParser :=
  (false, f)

/-- `FastParser::close` from `trace_parser.hpp` line 257: empty body. -/
def FastParser.close (f : FastParser) : FastParser := f

/-- `FastParser::get_version` from `trace_parser.hpp` line 258: returns 0. -/
def FastParser.get_version (f : FastParser) : Nat := 0

/-- The wrapped parser as the Frame-Loop Controller sees it (the C++
`AbstractParser *parser` member): a step function yielding the next call
result, and a bookmark query. -/
structure InnerParser (σ : Type) where
  parseCall : σ → ParseResult Call × σ
  getBookmark : σ → ParseBookmark

/-- `LastFrameLoopParser` state from `trace_parser.hpp` lines 266-301: the
wrapped parser, the optional internal replayer `fp` (present exactly while
LOOPING), the `firstCall` and `savingCalls` flags, the in-progress capture
`buffer`, the completed-frame candidate `savedCalls`, the two bookmarks, and
the wrap-around iteration count. -/
structure LoopParserState (σ : Type) where
  inner : σ
  fp : Option FastParser
  itersDone : Nat
  firstCall : Bool
  savingCalls : Bool
  buffer : List Call
  savedCalls : List Call
  frameStart : ParseBookmark
  lastFrameStart : ParseBookmark

/-- A freshly constructed controller around an inner parser state
(`trace_parser.hpp` lines 268-275: `firstCall = true`, `savedCalls` cleared,
`savingCalls = false`, `fp = NULL`). -/
def initLoop {σ : Type} (i : σ) : LoopParserState σ :=
  { inner := i, fp := none, itersDone := 0, firstCall := true,
    savingCalls := false, buffer := [], savedCalls := [],
    frameStart := ⟨0, 0⟩, lastFrameStart := ⟨0, 0⟩ }

/-- Modelled from the spec: `LastFrameLoopParser::bookmarkFrameStart` (§4.6) —
invoked when `call` begins a new frame.  If a capture is in progress the
just-finished frame's buffered calls (everything before `call`, which the
preceding `parseCall` already appended) become the new `savedCalls` candidate
and `lastFrameStart` moves to `frameStart`; a fresh capture then begins at
this call. -/
def LoopParser.bookmarkFrameStart {σ : Type} (p : InnerParser σ) (call : Call)
    (s : LoopParserState σ) : LoopParserState σ :=
  if s.savingCalls then
    { s with savedCalls := s.buffer.dropLast, lastFrameStart := s.frameStart,
             frameStart := p.getBookmark s.inner, buffer := [call] }
  else
    { s with frameStart := p.getBookmark s.inner, buffer := [call],
             savingCalls := true }

/-- Modelled from the spec: one replay step while LOOPING (§4.6) — iteration
counting tracks Cached-Replayer wrap-arounds; once `loopIter` iterations are
done and `loopContinuous` is off, end-of-stream is re-propagated instead of
delegating further. -/
def LoopParser.loopingStep {σ : Type} (cfg : LoopConfig) (s : LoopParserState σ) :
    ParseResult Call × LoopParserState σ :=
  match s.fp with
  | none => (ParseResult.endOfStream, s)
  | some f =>
    if cfg.loopContinuous = false ∧ cfg.loopIter ≤ s.itersDone then
      (ParseResult.endOfStream, s)
    else
      match FastParser.parse_call f with
      | (none, _) => (ParseResult.endOfStream, s)
      | (some c, f') =>
        (ParseResult.ok c,
         { s with fp := some f',
                  itersDone := if f'.idx = 0 then s.itersDone + 1 else s.itersDone })

/-- Modelled from the spec: `LastFrameLoopParser::parse_call` (§4.6).  While
LOOPING it delegates to the internal replayer.  Otherwise it delegates to the
wrapped parser: a returned call starts or extends the capture buffer; a
`formatError` is propagated unchanged; on `endOfStream`, when `loopOnFinish`
is off the end is propagated, and when it is on the in-progress buffer is
finalized as `savedCalls`, an internal replayer is constructed over it, and
replay begins. -/
def LoopParser.parseCall {σ : Type} (p : InnerParser σ) (cfg : LoopConfig)
    (s : LoopParserState σ) : ParseResult Call × LoopParserState σ :=
  match s.fp with
  | some _ => LoopParser.loopingStep cfg s
  | none =>
    let b0 := p.getBookmark s.inner
    match p.parseCall s.inner with
    | (ParseResult.ok c, inner1) =>
      if s.firstCall then
        (ParseResult.ok c,
         { s with inner := inner1, firstCall := false, savingCalls := true,
                  buffer := [c], frameStart := b0 })
      else if s.savingCalls then
        (ParseResult.ok c, { s with inner := inner1, buffer := s.buffer ++ [c] })
      else
        (ParseResult.ok c, { s with inner := inner1 })
    | (ParseResult.formatError, inner1) =>
      (ParseResult.formatError, { s with inner := inner1 })
    | (ParseResult.endOfStream, inner1) =>
      if cfg.loopOnFinish then
        LoopParser.loopingStep cfg
          { s with inner := inner1,
                   fp := some ⟨(if s.savingCalls then s.buffer else s.savedCalls), 0⟩,
                   itersDone := 0,
                   savedCalls := if s.savingCalls then s.buffer else s.savedCalls }
      else
        (ParseResult.endOfStream, { s with inner := inner1 })

/-- Run `n` controller `parseCall` invocations from `s`. -/
def LoopParser.runN {σ : Type} (p : InnerParser σ) (cfg : LoopConfig) :
    Nat → LoopParserState σ → LoopParserState σ
  | 0, s => s
  | n+1, s => LoopParser.runN p cfg n (LoopParser.parseCall p cfg s).2

/-- The result of the `(n+1)`-st controller `parseCall` starting from `s`. -/
def LoopParser.resultAt {σ : Type} (p : InnerParser σ) (cfg : LoopConfig)
    (s : LoopParserState σ) (n : Nat) : ParseResult Call :=
  (LoopParser.parseCall p cfg (LoopParser.runN p cfg n s)).1

/-- Run `n` invocations of the wrapped parser alone. -/
def innerRunN {σ : Type} (p : InnerParser σ) : Nat → σ → σ
  | 0, i => i
  | n+1, i => innerRunN p n (p.parseCall i).2

/-- The result of the `(n+1)`-st wrapped-parser invocation from `i`. -/
def innerResultAt {σ : Type} (p : InnerParser σ) (i : σ) (n : Nat) :
    ParseResult Call :=
  (p.parseCall (innerRunN p n i)).1

/-- A scripted wrapped parser: its state is the list of results it will
produce in order; an exhausted script keeps reporting end of stream. -/
def scriptInner : InnerParser (List (ParseResult Call)) :=
  { parseCall := fun l => match l with
      | [] => (ParseResult.endOfStream, [])
      | r :: t => (r, t),
    getBookmark := fun l => ⟨l.length, 0⟩ }

/-- A minimal concrete call record with sequence number `n`. -/
def mkCall (n : Nat) : Call :=
  { no := n, thread_id := 0, sigId := 0, args := [], ret := none, flags := 0,
    backtrace := none }

/-- Loop policy used in the concrete frame-capture scenario: looping enabled,
continuous. -/
def c6cfg : LoopConfig := ⟨true, true, 0⟩

/-- Controller freshly wrapped around a 3-call trace. -/
def c6s0 : LoopParserState (List (ParseResult Call)) :=
  initLoop [ParseResult.ok (mkCall 1), ParseResult.ok (mkCall 2),
            ParseResult.ok (mkCall 3)]

/-- After `parseCall` returning call 1. -/
def c6s1 : LoopParserState (List (ParseResult Call)) :=
  (LoopParser.parseCall scriptInner c6cfg c6s0).2

/-- After `parseCall` returning call 2. -/
def c6s2 : LoopParserState (List (ParseResult Call)) :=
  (LoopParser.parseCall scriptInner c6cfg c6s1).2

/-- After the caller marks call 2 as the start of frame 2. -/
def c6s2m : LoopParserState (List (ParseResult Call)) :=
  LoopParser.bookmarkFrameStart scriptInner (mkCall 2) c6s2

/-- After `parseCall` returning call 3. -/
def c6s3 : LoopParserState (List (ParseResult Call)) :=
  (LoopParser.parseCall scriptInner c6cfg c6s2m).2

/-- After the `parseCall` that hits end of stream inside frame 2 and
performs the loop transition. -/
def c6s4 : LoopParserState (List (ParseResult Call)) :=
  (LoopParser.parseCall scriptInner c6cfg c6s3).2

/-- Claim C6: in the 3-call trace where call 2 is marked (via
`bookmarkFrameStart`) as the start of frame 2 and the trace ends after call 3,
the `savedCalls` captured at the loop transition is exactly `[call2, call3]`
— not `[call1, call2, call3]` — and the internal replayer is built over it. -/
theorem c6_concrete_scenario :
    c6s4.savedCalls = [mkCall 2, mkCall 3] ∧
    c6s4.savedCalls ≠ [mkCall 1, mkCall 2, mkCall 3] ∧
    (LoopParser.parseCall scriptInner c6cfg c6s3).1 = ParseResult.ok (mkCall 2) :=
  ⟨rfl,
   fun h => absurd (congrArg List.length h) (by decide),
   rfl⟩

/-- Claim C9: every `FastParser` bookmark operation (`getBookmark`,
`setBookmark`, `bookmarkFrameStart`) is a no-op leaving all state (and the
out-parameter) unchanged, `close` is a no-op, `get_version` returns zero, and
`open` is a no-op that reports failure, for every argument and state. -/
theorem c9_fastparser_noops (f : FastParser) (b : ParseBookmark) (c : Call)
    (fn : List Nat) :
    FastParser.getBookmark f b = (b, f) ∧
    FastParser.setBookmark b f = f ∧
    FastParser.bookmarkFrameStart c f = f ∧
    FastParser.openFile fn f = (false, f) ∧
    FastParser.close f = f ∧
    FastParser.get_version f = 0 :=
  ⟨rfl, rfl, rfl, rfl, rfl, rfl⟩

/-- Claim C8: the Frame-Loop Controller never suppresses a `formatError`:
whenever the wrapped parser reports one (the controller not being in replay),
the controller reports the identical `formatError`, for every loop policy;
and `formatError` remains distinguishable from `endOfStream`. -/
theorem c8_format_error_propagation {σ : Type} (p : InnerParser σ)
    (cfg : LoopConfig) (s : LoopParserState σ) (hfp : s.fp = none)
    (hfe : (p.parseCall s.inner).1 = ParseResult.formatError) :
    (LoopParser.parseCall p cfg s).1 = ParseResult.formatError ∧
    (ParseResult.formatError : ParseResult Call) ≠ ParseResult.endOfStream := by
  refine ⟨?_, fun h => ParseResult.noConfusion h⟩
  simp only [LoopParser.parseCall, hfp]
  cases hp : p.parseCall s.inner with
  | mk r i1 =>
    rw [hp] at hfe
    cases r with
    | ok c => exact absurd hfe (by simp)
    | endOfStream => exact absurd hfe (by simp)
    | formatError => rfl

/-- Witness for C8: a scripted trace whose first result is a `formatError`,
with looping fully enabled. -/
theorem c8_format_error_propagation_witness :
    (LoopParser.parseCall scriptInner ⟨true, true, 1⟩
      (initLoop [ParseResult.formatError])).1 = ParseResult.formatError ∧
    (ParseResult.formatError : ParseResult Call) ≠ ParseResult.endOfStream :=
  c8_format_error_propagation scriptInner ⟨true, true, 1⟩
    (initLoop [ParseResult.formatError]) rfl rfl

theorem runN_succ_back {σ : Type} (p : InnerParser σ) (cfg : LoopConfig) :
    ∀ (n : Nat) (s : LoopParserState σ),
    LoopParser.runN p cfg (n + 1) s =
      (LoopParser.parseCall p cfg (LoopParser.runN p cfg n s)).2 := by
  intro n
  induction n with
  | zero => intro s; rfl
  | succ n ih =>
    intro s
    show LoopParser.runN p cfg (n + 1) (LoopParser.parseCall p cfg s).2 = _
    rw [ih (LoopParser.parseCall p cfg s).2]
    rfl

theorem noloop_parse {σ : Type} (p : InnerParser σ) (cfg : LoopConfig)
    (s : LoopParserState σ) (hcfg : cfg.loopOnFinish = false) (hfp : s.fp = none) :
    (LoopParser.parseCall p cfg s).1 = (p.parseCall s.inner).1 ∧
    (LoopParser.parseCall p cfg s).2.inner = (p.parseCall s.inner).2 ∧
    (LoopParser.parseCall p cfg s).2.fp = none := by
  simp only [LoopParser.parseCall, hfp]
  cases hp : p.parseCall s.inner with
  | mk r i1 =>
    cases r with
    | ok c =>
      cases hb : s.firstCall <;> cases hs : s.savingCalls <;> simp [hb, hs, hfp]
    | endOfStream => simp [hcfg, hfp]
    | formatError => simp [hfp]

theorem noloop_run {σ : Type} (p : InnerParser σ) (cfg : LoopConfig)
    (hcfg : cfg.loopOnFinish = false) :
    ∀ (n : Nat) (s : LoopParserState σ), s.fp = none →
    (LoopParser.runN p cfg n s).fp = none ∧
    (LoopParser.runN p cfg n s).inner = innerRunN p n s.inner := by
  intro n
  induction n with
  | zero => intro s hfp; exact ⟨hfp, rfl⟩
  | succ n ih =>
    intro s hfp
    have hstep := noloop_parse p cfg s hcfg hfp
    show (LoopParser.runN p cfg n (LoopParser.parseCall p cfg s).2).fp = none ∧
      (LoopParser.runN p cfg n (LoopParser.parseCall p cfg s).2).inner =
        innerRunN p n (p.parseCall s.inner).2
    have := ih (LoopParser.parseCall p cfg s).2 hstep.2.2
    rw [hstep.2.1] at this
    exact this

/-- The canonical looping-phase state: `s` with the replayer cursor at `r`
and `d` completed iterations. -/
def loopStateAt {σ : Type} (s : LoopParserState σ) (saved : List Call)
    (d r : Nat) : LoopParserState σ :=
  { s with fp := some ⟨saved, r⟩, itersDone := d }

theorem loopStateAt_base {σ : Type} {s : LoopParserState σ} {saved : List Call}
    (hfp : s.fp = some ⟨saved, 0⟩) (hit : s.itersDone = 0) :
    loopStateAt s saved 0 0 = s := by
  cases s with
  | mk inner fp itersDone firstCall savingCalls buffer savedCalls frameStart lastFrameStart =>
    simp only [loopStateAt]
    simp only at hfp hit
    rw [hfp, hit]

theorem loop_serve {σ : Type} (p : InnerParser σ) (cfg : LoopConfig)
    (s : LoopParserState σ) (saved : List Call) (d r : Nat)
    (hr : r < saved.length)
    (hguard : ¬(cfg.loopContinuous = false ∧ cfg.loopIter ≤ d)) :
    LoopParser.parseCall p cfg (loopStateAt s saved d r) =
      (ParseResult.ok (saved.get ⟨r, hr⟩),
       if r + 1 = saved.length then loopStateAt s saved (d + 1) 0
       else loopStateAt s saved d (r + 1)) := by
  have hget : saved.get? r = some (saved.get ⟨r, hr⟩) := List.get?_eq_get hr
  simp only [LoopParser.parseCall, loopStateAt, LoopParser.loopingStep]
  rw [if_neg hguard]
  simp only [FastParser.parse_call, hget]
  by_cases hcase : r + 1 = saved.length
  · have hge : r + 1 ≥ saved.length := le_of_eq hcase.symm
    rw [if_pos hcase]
    simp [hge]
  · have hlt : r + 1 < saved.length := Nat.lt_of_le_of_ne (Nat.succ_le_of_lt hr) hcase
    have hge : ¬(r + 1 ≥ saved.length) := Nat.not_le_of_lt hlt
    rw [if_neg hcase]
    simp [hge, Nat.succ_ne_zero]

theorem loop_exhausted {σ : Type} (p : InnerParser σ) (cfg : LoopConfig)
    (s : LoopParserState σ) (saved : List Call) (d r : Nat)
    (hguard : cfg.loopContinuous = false ∧ cfg.loopIter ≤ d) :
    LoopParser.parseCall p cfg (loopStateAt s saved d r) =
      (ParseResult.endOfStream, loopStateAt s saved d r) := by
  simp only [LoopParser.parseCall, loopStateAt, LoopParser.loopingStep]
  rw [if_pos hguard]

theorem loop_row {σ : Type} (p : InnerParser σ) (cfg : LoopConfig)
    (s : LoopParserState σ) (saved : List Call) (d : Nat)
    (hd : d < cfg.loopIter)
    (hbase : LoopParser.runN p cfg (d * saved.length) s = loopStateAt s saved d 0) :
    ∀ r, r < saved.length →
      LoopParser.runN p cfg (d * saved.length + r) s = loopStateAt s saved d r := by
  intro r
  induction r with
  | zero => intro hr; simpa using hbase
  | succ r ih =>
    intro hr
    have hr' : r < saved.length := Nat.lt_of_succ_lt hr
    have hprev := ih hr'
    have hguard : ¬(cfg.loopContinuous = false ∧ cfg.loopIter ≤ d) :=
      fun hg => absurd hd (Nat.not_lt_of_le hg.2)
    have hstep : d * saved.length + (r + 1) = (d * saved.length + r) + 1 := rfl
    rw [hstep, runN_succ_back, hprev, loop_serve p cfg s saved d r hr' hguard]
    have hne : ¬(r + 1 = saved.length) := Nat.ne_of_lt hr
    rw [if_neg hne]

theorem loop_col {σ : Type} (p : InnerParser σ) (cfg : LoopConfig)
    (s : LoopParserState σ) (saved : List Call) (hm : 0 < saved.length)
    (hfp : s.fp = some ⟨saved, 0⟩) (hit : s.itersDone = 0) :
    ∀ d, d ≤ cfg.loopIter →
      LoopParser.runN p cfg (d * saved.length) s = loopStateAt s saved d 0 := by
  intro d
  induction d with
  | zero =>
    intro _
    have h0 : 0 * saved.length = 0 := Nat.zero_mul _
    rw [h0]
    exact (loopStateAt_base hfp hit).symm
  | succ d ih =>
    intro hd
    have hd' : d < cfg.loopIter := Nat.lt_of_succ_le hd
    have hbase := ih (Nat.le_of_lt hd')
    have hrm : saved.length - 1 < saved.length := Nat.sub_lt hm Nat.one_pos
    have hrow := loop_row p cfg s saved d hd' hbase (saved.length - 1) hrm
    have hguard : ¬(cfg.loopContinuous = false ∧ cfg.loopIter ≤ d) :=
      fun hg => absurd hd' (Nat.not_lt_of_le hg.2)
    have hidx : (d + 1) * saved.length =
        (d * saved.length + (saved.length - 1)) + 1 := by
      rw [Nat.succ_mul, Nat.add_assoc, Nat.sub_add_cancel hm]
    rw [hidx, runN_succ_back, hrow,
      loop_serve p cfg s saved d (saved.length - 1) hrm hguard]
    have heq : (saved.length - 1) + 1 = saved.length := Nat.sub_add_cancel hm
    rw [if_pos heq]

theorem loop_after {σ : Type} (p : InnerParser σ) (cfg : LoopConfig)
    (s : LoopParserState σ) (saved : List Call)
    (hcont : cfg.loopContinuous = false) (hm : 0 < saved.length)
    (hfp : s.fp = some ⟨saved, 0⟩) (hit : s.itersDone = 0) :
    ∀ i, LoopParser.runN p cfg (cfg.loopIter * saved.length + i) s =
      loopStateAt s saved cfg.loopIter 0 := by
  intro i
  induction i with
  | zero => simpa using loop_col p cfg s saved hm hfp hit cfg.loopIter (le_refl _)
  | succ i ih =>
    have hstep : cfg.loopIter * saved.length + (i + 1) =
        (cfg.loopIter * saved.length + i) + 1 := rfl
    rw [hstep, runN_succ_back, ih,
      loop_exhausted p cfg s saved cfg.loopIter 0 ⟨hcont, le_refl _⟩]

theorem loop_cont_run {σ : Type} (p : InnerParser σ) (cfg : LoopConfig)
    (s : LoopParserState σ) (saved : List Call)
    (hcont : cfg.loopContinuous = true) (hm : 0 < saved.length)
    (hfp : s.fp = some ⟨saved, 0⟩) (hit : s.itersDone = 0) :
    ∀ n, ∃ d r, r < saved.length ∧
      LoopParser.runN p cfg n s = loopStateAt s saved d r := by
  intro n
  induction n with
  | zero => exact ⟨0, 0, hm, (loopStateAt_base hfp hit).symm⟩
  | succ n ih =>
    obtain ⟨d, r, hr, heq⟩ := ih
    rw [runN_succ_back, heq, loop_serve p cfg s saved d r hr
      (fun hg => by rw [hcont] at hg; exact Bool.noConfusion hg.1)]
    by_cases hc : r + 1 = saved.length
    · rw [if_pos hc]
      exact ⟨d + 1, 0, hm, rfl⟩
    · rw [if_neg hc]
      exact ⟨d, r + 1, Nat.lt_of_le_of_ne (Nat.succ_le_of_lt hr) hc, rfl⟩

/-- Claim C5: the Frame-Loop Controller's `parseCall` obeys the loop policy.
With `loopOnFinish = false` it mirrors the wrapped parser exactly — every
result, including the single `endOfStream`, is the wrapped parser's result at
the same step.  With looping on, `loopContinuous = false` and `loopIter = k`,
starting at the loop transition over a cached frame of `m` calls: the first
`k*m` results replay the cached frame in order exactly `k` times, and from
step `k*m` on every result is `endOfStream`.  With `loopContinuous = true`,
`parseCall` never returns `endOfStream`. -/
theorem c5_loop_policy {σ : Type} (p : InnerParser σ) (cfg : LoopConfig)
    (s : LoopParserState σ) :
    (cfg.loopOnFinish = false → s.fp = none →
      ∀ n, LoopParser.resultAt p cfg s n = innerResultAt p s.inner n) ∧
    (∀ saved : List Call, cfg.loopContinuous = false →
      s.fp = some ⟨saved, 0⟩ → s.itersDone = 0 → 0 < saved.length →
      (∀ d r (hr : r < saved.length), d < cfg.loopIter →
        LoopParser.resultAt p cfg s (d * saved.length + r) =
          ParseResult.ok (saved.get ⟨r, hr⟩)) ∧
      (∀ j, LoopParser.resultAt p cfg s (cfg.loopIter * saved.length + j) =
        ParseResult.endOfStream)) ∧
    (∀ saved : List Call, cfg.loopContinuous = true →
      s.fp = some ⟨saved, 0⟩ → s.itersDone = 0 → 0 < saved.length →
      ∀ n, ∃ c, LoopParser.resultAt p cfg s n = ParseResult.ok c) := by
  refine ⟨?_, ?_, ?_⟩
  · intro hcfg hfp n
    have hrun := noloop_run p cfg hcfg n s hfp
    have hstep := noloop_parse p cfg (LoopParser.runN p cfg n s) hcfg hrun.1
    show (LoopParser.parseCall p cfg (LoopParser.runN p cfg n s)).1 = _
    rw [hstep.1, hrun.2]
    rfl
  · intro saved hcont hfp hit hm
    constructor
    · intro d r hr hd
      have hcol := loop_col p cfg s saved hm hfp hit d (Nat.le_of_lt hd)
      have hrow := loop_row p cfg s saved d hd hcol r hr
      show (LoopParser.parseCall p cfg
        (LoopParser.runN p cfg (d * saved.length + r) s)).1 = _
      rw [hrow, loop_serve p cfg s saved d r hr
        (fun hg => absurd hd (Nat.not_lt_of_le hg.2))]
    · intro j
      have hafter := loop_after p cfg s saved hcont hm hfp hit j
      show (LoopParser.parseCall p cfg
        (LoopParser.runN p cfg (cfg.loopIter * saved.length + j) s)).1 = _
      rw [hafter,
        loop_exhausted p cfg s saved cfg.loopIter 0 ⟨hcont, le_refl _⟩]
  · intro saved hcont hfp hit hm n
    obtain ⟨d, r, hr, heq⟩ := loop_cont_run p cfg s saved hcont hm hfp hit n
    refine ⟨saved.get ⟨r, hr⟩, ?_⟩
    show (LoopParser.parseCall p cfg (LoopParser.runN p cfg n s)).1 = _
    rw [heq, loop_serve p cfg s saved d r hr
      (fun hg => by rw [hcont] at hg; exact Bool.noConfusion hg.1)]

/-- A controller state already at the loop transition over a one-call cached
frame. -/
def c5sB : LoopParserState (List (ParseResult Call)) :=
  { initLoop ([] : List (ParseResult Call)) with fp := some ⟨[mkCall 5], 0⟩ }

/-- Witness for C5: with looping off the controller mirrors the wrapped
parser; with `loopIter = 2` over a one-call frame the second replayed result
is the cached call and the result after `2*1` steps is `endOfStream`; with
continuous looping the eighth result is still a call. -/
theorem c5_loop_policy_witness :
    (LoopParser.resultAt scriptInner ⟨false, false, 0⟩
        (initLoop [ParseResult.ok (mkCall 1)]) 1 =
      innerResultAt scriptInner (initLoop [ParseResult.ok (mkCall 1)]).inner 1) ∧
    (LoopParser.resultAt scriptInner ⟨true, false, 2⟩ c5sB 1 =
      ParseResult.ok (mkCall 5)) ∧
    (LoopParser.resultAt scriptInner ⟨true, false, 2⟩ c5sB 2 =
      ParseResult.endOfStream) ∧
    (∃ c, LoopParser.resultAt scriptInner ⟨true, true, 0⟩ c5sB 7 =
      ParseResult.ok c) :=
  ⟨(c5_loop_policy scriptInner ⟨false, false, 0⟩
      (initLoop [ParseResult.ok (mkCall 1)])).1 rfl rfl 1,
   ((c5_loop_policy scriptInner ⟨true, false, 2⟩ c5sB).2.1 [mkCall 5]
      rfl rfl rfl (by decide)).1 1 0 (by decide) (by decide),
   ((c5_loop_policy scriptInner ⟨true, false, 2⟩ c5sB).2.1 [mkCall 5]
      rfl rfl rfl (by decide)).2 0,
   (c5_loop_policy scriptInner ⟨true, true, 0⟩ c5sB).2.2 [mkCall 5]
      rfl rfl rfl (by decide) 7⟩

end Trace
